import Mathlib

/-!
# DCT-IV engine of the LC3 decoder (`lc3_dec/Common/DctIV.cpp`)

A shallow embedding of the `DctIVDbl` class and of `DctIVDirectDbl`, in exact
arithmetic over a field `R` (the `double` values of the source are read as
elements of `R`; the analytic results are about `R = ℝ`).  The active build
configuration of the file is `#define USE_OWN_FFT`; the `USE_KISSFFT` body of
`run()` is embedded as well, as `DctIVDbl.run_KISSFFT`.

Buffers (`double*`, `std::complex<double>*`, `fft_complex[]`) are lists, read
with `List.getD` and written with `List.set`.  Loop counters are `uint16_t`
and are incremented modulo `2^16`; `int` expressions are reduced to the
two's-complement range of 32 bits where the source computes them in `int`.
-/

set_option linter.unusedVariables false

namespace LC3

/-! ## Machine integers -/

/-- Value of a `uint16_t` after an arithmetic result `x` is stored in it. -/
def wrapU16 (x : Nat) : Nat := x % 65536

/-- Value of a 32-bit two's-complement `int` holding the mathematical result `x`. -/
def wrapI32 (x : Int) : Int := (x + 2147483648) % 4294967296 - 2147483648

/-- The loop `for (uint16_t n = n0; n < bound; n += step) body(n)` acting on a
state of type `σ`; `bound` is an `int` expression that does not change during
the loop.  All loops of the file have `bound + step ≤ 2^16` (the bound is
`NF`, `N` or `NF / 2` for a `uint16_t` value and the step is 1 or 2). -/
def forU16 {σ : Type} (step bound : Nat) (hb : bound + step ≤ 65536) (hs : 0 < step)
    (body : Nat → σ → σ) (n : Nat) (s : σ) : σ :=
  if n < bound then forU16 step bound hb hs body (wrapU16 (n + step)) (body n s) else s
termination_by bound - n
decreasing_by
  have h1 : n + step < 65536 := by omega
  simp only [wrapU16, Nat.mod_eq_of_lt h1]
  omega

/-! ## Numbers -/

/-- The `<cmath>` functions used by the file, as functions on `R`. -/
structure Libm (R : Type) where
  /-- Models `std::cos`. -/
  cos : R → R
  /-- Models `std::sin`. -/
  sin : R → R
  /-- Models `std::acos`. -/
  acos : R → R

/-- The exact real functions. -/
noncomputable def realLibm : Libm ℝ := ⟨Real.cos, Real.sin, Real.arccos⟩

/-- A complex number as a pair of reals: both `std::complex<double>` and the
`fft_complex` struct (`re`, `im`) of `fft.h`. -/
structure complex (R : Type) where
  re : R
  im : R

/-- The `fft_complex` struct of `fft.h`. -/
abbrev fft_complex (R : Type) := complex R

variable {R : Type} [Field R]

instance : Zero (complex R) := ⟨⟨0, 0⟩⟩

/-- The product `a * b` of `std::complex<double>`. -/
def complex.mul (a b : complex R) : complex R :=
  ⟨a.re * b.re - a.im * b.im, a.re * b.im + a.im * b.re⟩

/-- The type of the complex FFT routine `fft(inverse, in, n, buf1, buf2)` of
`fft.h`, which returns the buffer holding the `n` output bins; the same
function type serves for `kissfft<double>(n, inverse).transform`. -/
abbrev FFT (R : Type) := Bool → List (fft_complex R) → Nat → List (fft_complex R)

/-! ## The engine -/

/-- The state of a `DctIVDbl` object (`USE_OWN_FFT`: `dctIVconfig` points to
the twiddle table). -/
structure DctIVDbl (R : Type) where
  /-- The member `const uint16_t NF`. -/
  NF : Nat
  /-- The member `NF` is a `uint16_t`. -/
  NF_lt : NF < 65536
  /-- The member `double* in`. -/
  in_ : List R
  /-- The member `double* out`. -/
  out : List R
  /-- The member `void* dctIVconfig`, a `std::complex<double>[NF / 2]`. -/
  dctIVconfig : List (complex R)

/-- The twiddle loop of the constructor (`USE_OWN_FFT`), for `int N = NF / 2`:
`for (uint16_t n = 0; n < N; n++) twiddle[n] = complex(cos(-pi * (8 * n + 1) /
(8.0 * N * 2)), sin(-pi * (8 * n + 1) / (8.0 * N * 2)))`, starting from the
freshly allocated array.  `8 * n + 1` is an `int`.  The constructor of
`KissfftConfig` (`USE_KISSFFT`) runs the same loop for its argument `N`. -/
def twiddleLoop (L : Libm R) (N : Nat) (hN : N + 1 ≤ 65536) : List (complex R) :=
  let pi : R := L.acos (-1)
  forU16 1 N hN Nat.one_pos
    (fun n twiddle =>
      twiddle.set n
        ⟨L.cos (-pi * ((wrapI32 (8 * (n : Int) + 1) : Int) : R) / (8 * (N : R) * 2)),
         L.sin (-pi * ((wrapI32 (8 * (n : Int) + 1) : Int) : R) / (8 * (N : R) * 2))⟩)
    0 (List.replicate N 0)

/-- The constructor `DctIVDbl::DctIVDbl(uint16_t NF_)` (`USE_OWN_FFT`).  The
arrays returned by `new[]` are taken to hold zeros before they are written. -/
def DctIVDbl.new (L : Libm R) (NF_ : Nat) (h : NF_ < 65536) : DctIVDbl R :=
  let NF := NF_
  let in0 : List R := List.replicate NF 0
  let out0 : List R := List.replicate NF 0
  let N := NF / 2
  let twiddle := twiddleLoop L N (by omega)
  let io := forU16 1 NF (by omega) Nat.one_pos
    (fun n (io : List R × List R) => (io.1.set n 0, io.2.set n 0)) 0 (in0, out0)
  { NF := NF, NF_lt := h, in_ := io.1, out := io.2, dctIVconfig := twiddle }

/-- The errors the specification names for engine construction. -/
inductive ConstructionError where
  | InvalidSizeError
  | ResourceError
  deriving DecidableEq, Repr

/-- Construction seen as a fallible operation: the constructor contains no
check of `NF_` and no `throw`, so it always yields the engine (exhaustion of
memory in `new[]` is not modelled). -/
def DctIVDbl.create (L : Libm R) (NF_ : Nat) (h : NF_ < 65536) :
    Except ConstructionError (DctIVDbl R) :=
  Except.ok (DctIVDbl.new L NF_ h)

/-- The function `void DctIVDirectDbl(uint16_t N, const double* const tw, double* const X)`;
returns the contents of `X` afterwards. -/
def DctIVDirectDbl (L : Libm R) (N : Nat) (hN : N < 65536) (tw : List R) (X : List R) : List R :=
  let pi : R := L.acos (-1)
  forU16 1 N (by omega) Nat.one_pos
    (fun k X =>
      let X := X.set k 0
      let X := forU16 1 N (by omega) Nat.one_pos
        (fun n X =>
          X.set k (X.getD k 0 + tw.getD n 0 * L.cos (pi / (N : R) * ((n : R) + 1 / 2) * ((k : R) + 1 / 2))))
        0 X
      X.set k (X.getD k 0 * 2))
    0 X

/-- The first loop of `run()` (`USE_OWN_FFT`): for odd `n < NF / 2`, exchange
`in[n]` and `in[NF - n]`. -/
def run_reverse (NF : Nat) (h : NF < 65536) (in_ : List R) : List R :=
  forU16 2 (NF / 2) (by omega) Nat.two_pos
    (fun n in_ =>
      let buffer := in_.getD n 0
      let in_ := in_.set n (in_.getD (NF - n) 0)
      in_.set (NF - n) buffer)
    1 in_

/-- The second loop of `run()` (`USE_OWN_FFT`): rotate the pair
`(in[2n], in[2n+1])` by `twiddle[n]`, in place. -/
def run_prerotate (NF : Nat) (h : NF < 65536) (twiddle : List (complex R)) (in_ : List R) :
    List R :=
  forU16 1 (NF / 2) (by omega) Nat.one_pos
    (fun n in_ =>
      let real := in_.getD (2 * n + 0) 0
      let imag := in_.getD (2 * n + 1) 0
      let in_ := in_.set (2 * n + 0) (real * (twiddle.getD n 0).re - imag * (twiddle.getD n 0).im)
      in_.set (2 * n + 1) (real * (twiddle.getD n 0).im + imag * (twiddle.getD n 0).re))
    0 in_

/-- The third loop of `run()` (`USE_OWN_FFT`): copy the pairs into the local
array `fft_complex inbuf[NF / 2]`. -/
def run_pack (NF : Nat) (h : NF < 65536) (in_ : List R) : List (fft_complex R) :=
  forU16 1 (NF / 2) (by omega) Nat.one_pos
    (fun n inbuf =>
      let inbuf := inbuf.set n { inbuf.getD n 0 with re := in_.getD (2 * n) 0 }
      inbuf.set n { inbuf.getD n 0 with im := in_.getD (2 * n + 1) 0 })
    0 (List.replicate (NF / 2) 0)

/-- The fourth loop of `run()` (`USE_OWN_FFT`): rotate the FFT output by the
twiddle factors, scale by 2 and store the pairs in `out`. -/
def run_postrotate (NF : Nat) (h : NF < 65536) (twiddle : List (complex R))
    (actal_output : List (fft_complex R)) (out : List R) : List R :=
  forU16 1 (NF / 2) (by omega) Nat.one_pos
    (fun n out =>
      let real := (actal_output.getD n 0).re
      let imag := (actal_output.getD n 0).im
      let out := out.set (2 * n + 0)
        (2 * (real * (twiddle.getD n 0).re - imag * (twiddle.getD n 0).im))
      out.set (2 * n + 1) (2 * (real * (twiddle.getD n 0).im + imag * (twiddle.getD n 0).re)))
    0 out

/-- The last loop of `run()` (`USE_OWN_FFT`): for odd `n < NF / 2`, exchange
`out[n]` and `out[NF - n]` and negate both. -/
def run_negswap (NF : Nat) (h : NF < 65536) (out : List R) : List R :=
  forU16 2 (NF / 2) (by omega) Nat.two_pos
    (fun n out =>
      let buffer := out.getD n 0
      let out := out.set n (-out.getD (NF - n) 0)
      out.set (NF - n) (-buffer))
    1 out

/-- The array `inbuf` that `run()` (`USE_OWN_FFT`) hands to `fft`: the result
of the first three loops. -/
def DctIVDbl.run_inbuf (s : DctIVDbl R) : List (fft_complex R) :=
  let in1 := run_reverse s.NF s.NF_lt s.in_
  let twiddle := s.dctIVconfig
  let in2 := run_prerotate s.NF s.NF_lt twiddle in1
  run_pack s.NF s.NF_lt in2

/-- The method `void DctIVDbl::run()` in the active configuration
(`USE_OWN_FFT`); `fft` is the routine of `fft.h`. -/
def DctIVDbl.run (fft : FFT R) (s : DctIVDbl R) : DctIVDbl R :=
  let in1 := run_reverse s.NF s.NF_lt s.in_
  let twiddle := s.dctIVconfig
  let in2 := run_prerotate s.NF s.NF_lt twiddle in1
  let inbuf := run_pack s.NF s.NF_lt in2
  let actal_output := fft false inbuf (s.NF / 2)
  let out1 := run_postrotate s.NF s.NF_lt twiddle actal_output s.out
  let out2 := run_negswap s.NF s.NF_lt out1
  { s with in_ := in2, out := out2 }

/-- The array `kissfftConfig->inbuf` that `run()` (`USE_KISSFFT`) hands to the
FFT: the result of its first loop. -/
def DctIVDbl.run_KISSFFT_inbuf (s : DctIVDbl R) : List (complex R) :=
  let NF := s.NF
  let twiddle := s.dctIVconfig
  forU16 1 (NF / 2) (by have := s.NF_lt; omega) Nat.one_pos
    (fun n inbuf =>
      inbuf.set n ((twiddle.getD n 0).mul ⟨s.in_.getD (2 * n) 0, s.in_.getD (NF - 2 * n - 1) 0⟩))
    0 (List.replicate (NF / 2) 0)

/-- The method `void DctIVDbl::run()` in the `USE_KISSFFT` configuration.  The
twiddle table of `KissfftConfig` is computed by the same expression as the
one of `USE_OWN_FFT` and is read here from `dctIVconfig`; `fft` stands for
`kissfft<double>(NF / 2, false).transform`. -/
def DctIVDbl.run_KISSFFT (fft : FFT R) (s : DctIVDbl R) : DctIVDbl R :=
  let NF := s.NF
  let twiddle := s.dctIVconfig
  let inbuf := s.run_KISSFFT_inbuf
  let outbuf := fft false inbuf (NF / 2)
  let out := forU16 1 (NF / 2) (by have := s.NF_lt; omega) Nat.one_pos
    (fun n out =>
      let complexOut := (twiddle.getD n 0).mul (outbuf.getD n 0)
      let out := out.set (2 * n) (complexOut.re * 2)
      out.set (NF - 2 * n - 1) (-complexOut.im * 2))
    0 s.out
  { s with out := out }

/-- The method `void DctIVDbl::run()` when no fast transform is selected (the
`#else` branch): `DctIVDirectDbl(NF, in, out)`. -/
def DctIVDbl.run_DIRECT (L : Libm R) (s : DctIVDbl R) : DctIVDbl R :=
  { s with out := DctIVDirectDbl L s.NF s.NF_lt s.in_ s.out }

/-- The caller writes the `NF` samples `x` into the input buffer. -/
def DctIVDbl.setInput (s : DctIVDbl R) (x : List R) : DctIVDbl R :=
  { s with in_ := x }


/-- Modelled from the spec: the routine `fft` declared in `fft.h`, whose body
is not among the source files, taken to be the discrete Fourier transform of
size `n` ("complex FFT of size N/2, forward direction"):
`Y[k] = Σ_{j<n} y[j] * exp(∓2πi·j·k/n)`, with the minus sign for the forward
direction (`inverse = false`). -/
def dft (L : Libm R) : FFT R := fun inverse y n =>
  let pi : R := L.acos (-1)
  let sgn : R := if inverse then 1 else -1
  (List.range n).map (fun (k : Nat) =>
    ⟨Finset.sum (Finset.range n) (fun (j : Nat) =>
        ((y.getD j 0).mul ⟨L.cos (sgn * 2 * pi * (j : R) * (k : R) / (n : R)),
          L.sin (sgn * 2 * pi * (j : R) * (k : R) / (n : R))⟩).re),
     Finset.sum (Finset.range n) (fun (j : Nat) =>
        ((y.getD j 0).mul ⟨L.cos (sgn * 2 * pi * (j : R) * (k : R) / (n : R)),
          L.sin (sgn * 2 * pi * (j : R) * (k : R) / (n : R))⟩).im)⟩)

/-- The sequence `twiddle[n] * (x[2n] + i·x[NF-2n-1])`, `n < NF / 2`. -/
def packed (NF : Nat) (twiddle : List (complex R)) (x : List R) : List (complex R) :=
  (List.range (NF / 2)).map
    (fun n => (twiddle.getD n 0).mul ⟨x.getD (2 * n) 0, x.getD (NF - 2 * n - 1) 0⟩)

/-- The complex number a pair of reals stands for. -/
def complex.toComplex (z : complex ℝ) : ℂ := ⟨z.re, z.im⟩

/-- The term `tw[n] * cos(pi / N * (n + 0.5) * (k + 0.5))` that the inner loop
of `DctIVDirectDbl` adds to `X[k]`. -/
def directTerm (L : Libm R) (N : Nat) (tw : List R) (k n : Nat) : R :=
  tw.getD n 0 * L.cos (L.acos (-1) / (N : R) * ((n : R) + 1 / 2) * ((k : R) + 1 / 2))

/-- An FFT stand-in that returns its input (the transform of size 1 does so). -/
def idFFT : FFT ℚ := fun _ y _ => y

/-- An engine of size 4 over the rationals, with an arbitrary table of two
factors, input `1, 2, 3, 4` and a stale output buffer. -/
def sampleEngine : DctIVDbl ℚ :=
  { NF := 4, NF_lt := by decide, in_ := [1, 2, 3, 4], out := [9, 9, 9, 9],
    dctIVconfig := [⟨1, 0⟩, ⟨0, 1⟩] }

/-- The engine of size `NF` in exact real arithmetic, as built by the
constructor, after the caller has written `x` into its input buffer. -/
noncomputable def realEngine (NF : Nat) (h : NF < 65536) (x : List ℝ) : DctIVDbl ℝ :=
  (DctIVDbl.new realLibm NF h).setInput x

/-! ## Loop bodies -/

/-- Body of the two reversal loops: exchange positions `n` and `NF - n`,
applying `g` to both values. -/
def swapBody (g : R → R) (NF : Nat) (n : Nat) (buf : List R) : List R :=
  (buf.set n (g (buf.getD (NF - n) 0))).set (NF - n) (g (buf.getD n 0))

/-- Body of the two rotation loops: positions `2n` and `2n+1` receive values
computed from `n` and from the pair read at these positions. -/
def pairBody (A B : Nat → R → R → R) (n : Nat) (buf : List R) : List R :=
  (buf.set (2 * n) (A n (buf.getD (2 * n) 0) (buf.getD (2 * n + 1) 0))).set (2 * n + 1)
    (B n (buf.getD (2 * n) 0) (buf.getD (2 * n + 1) 0))

/-- Body of the output loop of the `USE_KISSFFT` branch. -/
def kissBody (a b : Nat → R) (NF : Nat) (n : Nat) (out : List R) : List R :=
  (out.set (2 * n) (a n)).set (NF - 2 * n - 1) (b n)

/-! ## Loops as folds -/

theorem forU16_one {σ : Type} (bound : Nat) (hb : bound + 1 ≤ 65536) (body : Nat → σ → σ) :
    ∀ (k n : Nat) (s : σ), n + k = bound →
      forU16 1 bound hb Nat.one_pos body n s
        = (List.range k).foldl (fun s j => body (n + j) s) s := by
  intro k
  induction k with
  | zero =>
    intro n s h
    rw [forU16, if_neg (by omega)]
    rfl
  | succ k ih =>
    intro n s h
    have hw : wrapU16 (n + 1) = n + 1 := Nat.mod_eq_of_lt (by omega)
    rw [forU16, if_pos (by omega), hw, ih (n + 1) (body n s) (by omega),
      List.range_succ_eq_map, List.foldl_cons, List.foldl_map]
    have hf : (fun (s : σ) (j : Nat) => body (n + 1 + j) s)
        = (fun (s : σ) (j : Nat) => body (n + Nat.succ j) s) := by
      funext s j
      rw [Nat.succ_eq_add_one, Nat.add_assoc, Nat.add_comm 1 j]
    rw [hf]
    rfl

theorem forU16_two {σ : Type} (bound : Nat) (hb : bound + 2 ≤ 65536) (body : Nat → σ → σ) :
    ∀ (k n : Nat) (s : σ), bound ≤ n + 2 * k → (k = 0 ∨ n + 2 * (k - 1) < bound) →
      forU16 2 bound hb Nat.two_pos body n s
        = (List.range k).foldl (fun s j => body (n + 2 * j) s) s := by
  intro k
  induction k with
  | zero =>
    intro n s h _
    rw [forU16, if_neg (by omega)]
    rfl
  | succ k ih =>
    intro n s h h2
    have hw : wrapU16 (n + 2) = n + 2 := Nat.mod_eq_of_lt (by omega)
    rw [forU16, if_pos (by omega), hw, ih (n + 2) (body n s) (by omega) (by omega),
      List.range_succ_eq_map, List.foldl_cons, List.foldl_map]
    have hf : (fun (s : σ) (j : Nat) => body (n + 2 + 2 * j) s)
        = (fun (s : σ) (j : Nat) => body (n + 2 * Nat.succ j) s) := by
      funext s j
      congr 1
      omega
    rw [hf]
    rfl

/-- A counted loop from 0 in steps of 1 is the fold of its body over `0, …, bound - 1`. -/
theorem forU16_from_zero {σ : Type} (bound : Nat) (hb : bound + 1 ≤ 65536) (body : Nat → σ → σ)
    (s : σ) :
    forU16 1 bound hb Nat.one_pos body 0 s = (List.range bound).foldl (fun s j => body j s) s := by
  rw [forU16_one bound hb body bound 0 s (by omega)]
  simp

/-- A loop over the odd `n < bound` is the fold of its body over `2j+1`, `j < bound / 2`. -/
theorem forU16_odd {σ : Type} (bound : Nat) (hb : bound + 2 ≤ 65536) (body : Nat → σ → σ)
    (s : σ) :
    forU16 2 bound hb Nat.two_pos body 1 s
      = (List.range (bound / 2)).foldl (fun s j => body (2 * j + 1) s) s := by
  rw [forU16_two bound hb body (bound / 2) 1 s (by omega) (by omega)]
  have hf : (fun (s : σ) (j : Nat) => body (1 + 2 * j) s)
      = (fun (s : σ) (j : Nat) => body (2 * j + 1) s) := by
    funext s j
    rw [Nat.add_comm]
  rw [hf]

/-! ## Reading a buffer after a write -/

theorem getD_set {α : Type} (l : List α) (i j : Nat) (v d : α) :
    (l.set i v).getD j d = if i = j ∧ j < l.length then v else l.getD j d := by
  by_cases hij : i = j
  · subst hij
    by_cases hl : i < l.length
    · simp [List.getD_eq_getElem?_getD, hl]
    · rw [List.set_eq_of_length_le (by omega)]
      simp [hl]
  · simp [List.getD_eq_getElem?_getD, hij, List.getElem?_set_ne hij]

theorem ext_getD {α : Type} (d : α) (l₁ l₂ : List α) (hl : l₁.length = l₂.length)
    (h : ∀ i, i < l₁.length → l₁.getD i d = l₂.getD i d) : l₁ = l₂ := by
  apply List.ext_getElem hl
  intro i h1 h2
  have := h i h1
  rwa [List.getD_eq_getElem _ _ h1, List.getD_eq_getElem _ _ h2] at this

/-! ## The loops of `run()`, index by index -/

theorem swapFold (g : R → R) (NF : Nat) (buf : List R) (hlen : buf.length = NF) :
    ∀ k, 2 * k ≤ NF / 2 →
      ((List.range k).foldl (fun s j => swapBody g NF (2 * j + 1) s) buf).length = NF ∧
      ∀ i, ((List.range k).foldl (fun s j => swapBody g NF (2 * j + 1) s) buf).getD i 0 =
        if (i % 2 = 1 ∧ i < 2 * k) ∨ ((NF - i) % 2 = 1 ∧ NF - i < 2 * k)
        then g (buf.getD (NF - i) 0) else buf.getD i 0 := by
  intro k
  induction k with
  | zero => intro _; simp [hlen]
  | succ k ih =>
    intro hk
    obtain ⟨hl, hg⟩ := ih (by omega)
    rw [List.range_succ, List.foldl_append]
    simp only [List.foldl_cons, List.foldl_nil]
    generalize (List.range k).foldl (fun s j => swapBody g NF (2 * j + 1) s) buf = r at hl hg ⊢
    refine ⟨by simp [swapBody, hl], fun i => ?_⟩
    simp only [swapBody, getD_set, List.length_set, hl, hg]
    have e1 : NF - (NF - (2 * k + 1)) = 2 * k + 1 := by omega
    by_cases h1 : NF - (2 * k + 1) = i
    · subst h1
      rw [if_pos ⟨rfl, by omega⟩, if_neg (by omega), if_pos (by omega), e1]
    · rw [if_neg (by omega)]
      by_cases h2 : 2 * k + 1 = i
      · subst h2
        rw [if_pos ⟨rfl, by omega⟩, if_neg (by omega), if_pos (by omega)]
      · rw [if_neg (by omega)]
        by_cases h3 : (i % 2 = 1 ∧ i < 2 * k) ∨ ((NF - i) % 2 = 1 ∧ NF - i < 2 * k)
        · rw [if_pos h3, if_pos (by omega)]
        · rw [if_neg h3, if_neg (by omega)]

/-- Both reversal loops, for even `NF`: every odd position `i` other than
`NF / 2` receives `g` of the value at `NF - i`; the other positions keep
their value. -/
theorem swapLoop_spec (g : R → R) (NF : Nat) (hNF : NF < 65536) (heven : NF % 2 = 0)
    (buf : List R) (hlen : buf.length = NF) :
    (forU16 2 (NF / 2) (by omega) Nat.two_pos (swapBody g NF) 1 buf).length = NF ∧
    ∀ i, i < NF →
      (forU16 2 (NF / 2) (by omega) Nat.two_pos (swapBody g NF) 1 buf).getD i 0 =
        if i % 2 = 1 ∧ i ≠ NF / 2 then g (buf.getD (NF - i) 0) else buf.getD i 0 := by
  rw [forU16_odd]
  obtain ⟨hl, hg⟩ := swapFold g NF buf hlen (NF / 2 / 2) (by omega)
  refine ⟨hl, fun i hi => ?_⟩
  rw [hg]
  by_cases h : i % 2 = 1 ∧ i ≠ NF / 2
  · rw [if_pos h, if_pos (by omega)]
  · rw [if_neg h, if_neg (by omega)]

theorem pairFold (A B : Nat → R → R → R) (buf : List R) :
    ∀ k, 2 * k ≤ buf.length →
      ((List.range k).foldl (fun s j => pairBody A B j s) buf).length = buf.length ∧
      ∀ i, ((List.range k).foldl (fun s j => pairBody A B j s) buf).getD i 0 =
        if i < 2 * k then
          (if i % 2 = 0 then A (i / 2) (buf.getD (2 * (i / 2)) 0) (buf.getD (2 * (i / 2) + 1) 0)
           else B (i / 2) (buf.getD (2 * (i / 2)) 0) (buf.getD (2 * (i / 2) + 1) 0))
        else buf.getD i 0 := by
  intro k
  induction k with
  | zero => intro _; simp
  | succ k ih =>
    intro hk
    obtain ⟨hl, hg⟩ := ih (by omega)
    rw [List.range_succ, List.foldl_append]
    simp only [List.foldl_cons, List.foldl_nil]
    generalize (List.range k).foldl (fun s j => pairBody A B j s) buf = r at hl hg ⊢
    refine ⟨by simp [pairBody, hl], fun i => ?_⟩
    have e0 : r.getD (2 * k) 0 = buf.getD (2 * k) 0 := by rw [hg, if_neg (by omega)]
    have e1 : r.getD (2 * k + 1) 0 = buf.getD (2 * k + 1) 0 := by rw [hg, if_neg (by omega)]
    simp only [pairBody, getD_set, List.length_set, hl, e0, e1]
    by_cases h1 : 2 * k + 1 = i
    · subst h1
      have e2 : (2 * k + 1) / 2 = k := by omega
      rw [if_pos ⟨rfl, by omega⟩, if_pos (by omega), if_neg (by omega), e2]
    · rw [if_neg (by omega)]
      by_cases h2 : 2 * k = i
      · subst h2
        have e2 : 2 * k / 2 = k := by omega
        rw [if_pos ⟨rfl, by omega⟩, if_pos (by omega), if_pos (by omega), e2]
      · rw [if_neg (by omega), hg]
        by_cases h3 : i < 2 * k
        · have h4 : i < 2 * (k + 1) := by omega
          rw [if_pos h3, if_pos h4]
        · have h4 : ¬ i < 2 * (k + 1) := by omega
          rw [if_neg h3, if_neg h4]

/-- Both rotation loops: the pair at `2n`, `2n+1` is replaced by
`A n`, `B n` of the pair that was there, for every `n < NF / 2`. -/
theorem pairLoop_spec (A B : Nat → R → R → R) (NF : Nat) (hNF : NF < 65536)
    (buf : List R) (hlen : buf.length = NF) :
    (forU16 1 (NF / 2) (by omega) Nat.one_pos (pairBody A B) 0 buf).length = NF ∧
    ∀ n, n < NF / 2 →
      (forU16 1 (NF / 2) (by omega) Nat.one_pos (pairBody A B) 0 buf).getD (2 * n) 0
        = A n (buf.getD (2 * n) 0) (buf.getD (2 * n + 1) 0) ∧
      (forU16 1 (NF / 2) (by omega) Nat.one_pos (pairBody A B) 0 buf).getD (2 * n + 1) 0
        = B n (buf.getD (2 * n) 0) (buf.getD (2 * n + 1) 0) := by
  rw [forU16_from_zero]
  obtain ⟨hl, hg⟩ := pairFold A B buf (NF / 2) (by omega)
  refine ⟨by rw [hl, hlen], fun n hn => ?_⟩
  have e0 : 2 * n / 2 = n := by omega
  have e1 : (2 * n + 1) / 2 = n := by omega
  constructor
  · rw [hg, if_pos (by omega), if_pos (by omega), e0]
  · rw [hg, if_pos (by omega), if_neg (by omega), e1]

theorem fillFold {α : Type} (d : α) (v : Nat → α) (buf : List α) :
    ∀ k, ((List.range k).foldl (fun s j => s.set j (v j)) buf).length = buf.length ∧
      ∀ i, ((List.range k).foldl (fun s j => s.set j (v j)) buf).getD i d =
        if i < k ∧ i < buf.length then v i else buf.getD i d := by
  intro k
  induction k with
  | zero => simp
  | succ k ih =>
    obtain ⟨hl, hg⟩ := ih
    rw [List.range_succ, List.foldl_append]
    simp only [List.foldl_cons, List.foldl_nil]
    generalize (List.range k).foldl (fun s j => s.set j (v j)) buf = r at hl hg ⊢
    refine ⟨by simp [hl], fun i => ?_⟩
    simp only [getD_set, hl, hg]
    by_cases h1 : k = i
    · subst h1
      by_cases h2 : k < buf.length
      · rw [if_pos ⟨rfl, h2⟩, if_pos ⟨by omega, h2⟩]
      · rw [if_neg (by omega), if_neg (by omega), if_neg (by omega)]
    · rw [if_neg (by omega)]
      by_cases h3 : i < k ∧ i < buf.length
      · rw [if_pos h3, if_pos (by omega)]
      · rw [if_neg h3, if_neg (by omega)]

/-- A loop that stores `v n` at position `n` of an array of `M` elements, for
every `n < M`, leaves the array `v 0, …, v (M-1)`. -/
theorem fillLoop_spec {α : Type} [Zero α] (v : Nat → α) (M : Nat) (hM : M + 1 ≤ 65536)
    (buf : List α) (hlen : buf.length = M) :
    forU16 1 M hM Nat.one_pos (fun n s => s.set n (v n)) 0 buf = (List.range M).map v := by
  rw [forU16_from_zero]
  obtain ⟨hl, hg⟩ := fillFold (0 : α) v buf M
  apply ext_getD 0
  · rw [hl, hlen]; simp
  · intro i hi
    rw [hl, hlen] at hi
    rw [hg, if_pos ⟨hi, by omega⟩, List.getD_eq_getElem _ _ (by simpa using hi)]
    simp

theorem kissFold (a b : Nat → R) (NF : Nat) (heven : NF % 2 = 0) (buf : List R)
    (hlen : buf.length = NF) :
    ∀ k, 2 * k ≤ NF →
      ((List.range k).foldl (fun s j => kissBody a b NF j s) buf).length = NF ∧
      ∀ i, ((List.range k).foldl (fun s j => kissBody a b NF j s) buf).getD i 0 =
        if i % 2 = 0 ∧ i < 2 * k then a (i / 2)
        else if i % 2 = 1 ∧ i < NF ∧ NF - 1 - i < 2 * k then b ((NF - 1 - i) / 2)
        else buf.getD i 0 := by
  intro k
  induction k with
  | zero => intro _; simp [hlen]
  | succ k ih =>
    intro hk
    obtain ⟨hl, hg⟩ := ih (by omega)
    rw [List.range_succ, List.foldl_append]
    simp only [List.foldl_cons, List.foldl_nil]
    generalize (List.range k).foldl (fun s j => kissBody a b NF j s) buf = r at hl hg ⊢
    refine ⟨by simp [kissBody, hl], fun i => ?_⟩
    simp only [kissBody, getD_set, List.length_set, hl, hg]
    by_cases h1 : NF - 2 * k - 1 = i
    · have e2 : (NF - 1 - i) / 2 = k := by omega
      have c1 : NF - 2 * k - 1 = i ∧ i < NF := ⟨h1, by omega⟩
      have c2 : ¬ (i % 2 = 0 ∧ i < 2 * (k + 1)) := by omega
      have c3 : i % 2 = 1 ∧ i < NF ∧ NF - 1 - i < 2 * (k + 1) := by omega
      rw [if_pos c1, if_neg c2, if_pos c3, e2]
    · have c1 : ¬ (NF - 2 * k - 1 = i ∧ i < NF) := by omega
      rw [if_neg c1]
      by_cases h2 : 2 * k = i
      · have e2 : i / 2 = k := by omega
        have c2 : 2 * k = i ∧ i < NF := ⟨h2, by omega⟩
        have c3 : i % 2 = 0 ∧ i < 2 * (k + 1) := by omega
        rw [if_pos c2, if_pos c3, e2]
      · have c2 : ¬ (2 * k = i ∧ i < NF) := by omega
        rw [if_neg c2]
        by_cases h3 : i % 2 = 0 ∧ i < 2 * k
        · have c3 : i % 2 = 0 ∧ i < 2 * (k + 1) := by omega
          rw [if_pos h3, if_pos c3]
        · have c3 : ¬ (i % 2 = 0 ∧ i < 2 * (k + 1)) := by omega
          rw [if_neg h3, if_neg c3]
          by_cases h4 : i % 2 = 1 ∧ i < NF ∧ NF - 1 - i < 2 * k
          · have c4 : i % 2 = 1 ∧ i < NF ∧ NF - 1 - i < 2 * (k + 1) := by omega
            rw [if_pos h4, if_pos c4]
          · have c4 : ¬ (i % 2 = 1 ∧ i < NF ∧ NF - 1 - i < 2 * (k + 1)) := by omega
            rw [if_neg h4, if_neg c4]

/-- The output loop of the `USE_KISSFFT` branch, for even `NF`: position `2n`
receives `a n` and position `NF - 2n - 1` receives `b n`, for every `n < NF / 2`. -/
theorem kissLoop_spec (a b : Nat → R) (NF : Nat) (hNF : NF < 65536) (heven : NF % 2 = 0)
    (buf : List R) (hlen : buf.length = NF) :
    (forU16 1 (NF / 2) (by omega) Nat.one_pos (kissBody a b NF) 0 buf).length = NF ∧
    ∀ n, n < NF / 2 →
      (forU16 1 (NF / 2) (by omega) Nat.one_pos (kissBody a b NF) 0 buf).getD (2 * n) 0 = a n ∧
      (forU16 1 (NF / 2) (by omega) Nat.one_pos (kissBody a b NF) 0 buf).getD (NF - 2 * n - 1) 0
        = b n := by
  rw [forU16_from_zero]
  obtain ⟨hl, hg⟩ := kissFold a b NF heven buf hlen (NF / 2) (by omega)
  refine ⟨hl, fun n hn => ?_⟩
  have e0 : 2 * n / 2 = n := by omega
  have e1 : (NF - 1 - (NF - 2 * n - 1)) / 2 = n := by omega
  constructor
  · rw [hg, if_pos (by omega), e0]
  · rw [hg, if_neg (by omega), if_pos (by omega), e1]

/-! ## The steps of `run()` -/

theorem complex.mul_comm (a b : complex R) : a.mul b = b.mul a := by
  simp only [complex.mul]
  congr 1 <;> ring

theorem run_reverse_spec (NF : Nat) (h : NF < 65536) (heven : NF % 2 = 0) (x : List R)
    (hlen : x.length = NF) :
    (run_reverse NF h x).length = NF ∧
    ∀ n, n < NF / 2 →
      (run_reverse NF h x).getD (2 * n) 0 = x.getD (2 * n) 0 ∧
      (run_reverse NF h x).getD (2 * n + 1) 0 = x.getD (NF - 2 * n - 1) 0 := by
  obtain ⟨hl, hg⟩ := swapLoop_spec (fun v => v) NF h heven x hlen
  refine ⟨hl, fun n hn => ⟨?_, ?_⟩⟩
  · refine (hg (2 * n) (by omega)).trans ?_
    rw [if_neg (by omega)]
  · refine (hg (2 * n + 1) (by omega)).trans ?_
    by_cases hm : 2 * n + 1 = NF / 2
    · have e : 2 * n + 1 = NF - 2 * n - 1 := by omega
      rw [if_neg (by omega), e]
    · have e : NF - (2 * n + 1) = NF - 2 * n - 1 := by omega
      rw [if_pos ⟨by omega, hm⟩, e]

theorem run_negswap_spec (NF : Nat) (h : NF < 65536) (heven : NF % 2 = 0) (out : List R)
    (hlen : out.length = NF) :
    (run_negswap NF h out).length = NF ∧
    ∀ i, i < NF →
      (run_negswap NF h out).getD i 0 =
        if i % 2 = 1 ∧ i ≠ NF / 2 then -out.getD (NF - i) 0 else out.getD i 0 :=
  swapLoop_spec (fun v => -v) NF h heven out hlen

theorem run_prerotate_spec (NF : Nat) (h : NF < 65536) (twiddle : List (complex R))
    (x : List R) (hlen : x.length = NF) :
    (run_prerotate NF h twiddle x).length = NF ∧
    ∀ n, n < NF / 2 →
      (run_prerotate NF h twiddle x).getD (2 * n) 0
        = x.getD (2 * n) 0 * (twiddle.getD n 0).re - x.getD (2 * n + 1) 0 * (twiddle.getD n 0).im ∧
      (run_prerotate NF h twiddle x).getD (2 * n + 1) 0
        = x.getD (2 * n) 0 * (twiddle.getD n 0).im + x.getD (2 * n + 1) 0 * (twiddle.getD n 0).re :=
  pairLoop_spec (fun n real imag => real * (twiddle.getD n 0).re - imag * (twiddle.getD n 0).im)
    (fun n real imag => real * (twiddle.getD n 0).im + imag * (twiddle.getD n 0).re) NF h x hlen

theorem run_postrotate_spec (NF : Nat) (h : NF < 65536) (twiddle : List (complex R))
    (Y : List (fft_complex R)) (out : List R) (hlen : out.length = NF) :
    (run_postrotate NF h twiddle Y out).length = NF ∧
    ∀ n, n < NF / 2 →
      (run_postrotate NF h twiddle Y out).getD (2 * n) 0
        = 2 * ((Y.getD n 0).re * (twiddle.getD n 0).re - (Y.getD n 0).im * (twiddle.getD n 0).im) ∧
      (run_postrotate NF h twiddle Y out).getD (2 * n + 1) 0
        = 2 * ((Y.getD n 0).re * (twiddle.getD n 0).im + (Y.getD n 0).im * (twiddle.getD n 0).re) :=
  pairLoop_spec
    (fun n _ _ => 2 * ((Y.getD n 0).re * (twiddle.getD n 0).re
      - (Y.getD n 0).im * (twiddle.getD n 0).im))
    (fun n _ _ => 2 * ((Y.getD n 0).re * (twiddle.getD n 0).im
      + (Y.getD n 0).im * (twiddle.getD n 0).re)) NF h out hlen

theorem run_pack_spec (NF : Nat) (h : NF < 65536) (x : List R) :
    run_pack NF h x
      = (List.range (NF / 2)).map (fun n => (⟨x.getD (2 * n) 0, x.getD (2 * n + 1) 0⟩ : complex R)) := by
  have hbody : (fun (n : Nat) (inbuf : List (fft_complex R)) =>
        let inbuf := inbuf.set n { inbuf.getD n 0 with re := x.getD (2 * n) 0 }
        inbuf.set n { inbuf.getD n 0 with im := x.getD (2 * n + 1) 0 })
      = (fun n s => s.set n (⟨x.getD (2 * n) 0, x.getD (2 * n + 1) 0⟩ : complex R)) := by
    funext n inbuf
    simp only [List.set_set, getD_set]
    by_cases hn : n < inbuf.length
    · simp [hn]
    · rw [List.set_eq_of_length_le (by omega), List.set_eq_of_length_le (by omega)]
  unfold run_pack
  rw [hbody]
  exact fillLoop_spec _ (NF / 2) (by omega) _ (by simp)

theorem packed_length (NF : Nat) (twiddle : List (complex R)) (x : List R) :
    (packed NF twiddle x).length = NF / 2 := by
  simp [packed]

theorem packed_getD (NF : Nat) (twiddle : List (complex R)) (x : List R) (n : Nat)
    (hn : n < NF / 2) :
    (packed NF twiddle x).getD n 0
      = (twiddle.getD n 0).mul ⟨x.getD (2 * n) 0, x.getD (NF - 2 * n - 1) 0⟩ := by
  rw [List.getD_eq_getElem _ _ (by simpa [packed] using hn)]
  simp [packed]

/-- The FFT input of the `USE_OWN_FFT` branch is the packed sequence. -/
theorem run_inbuf_eq (s : DctIVDbl R) (heven : s.NF % 2 = 0) (hin : s.in_.length = s.NF) :
    s.run_inbuf = packed s.NF s.dctIVconfig s.in_ := by
  obtain ⟨hl1, hg1⟩ := run_reverse_spec s.NF s.NF_lt heven s.in_ hin
  obtain ⟨_, hg2⟩ := run_prerotate_spec s.NF s.NF_lt s.dctIVconfig _ hl1
  unfold DctIVDbl.run_inbuf packed
  rw [run_pack_spec]
  apply List.map_congr_left
  intro n hn
  have hn' : n < s.NF / 2 := List.mem_range.mp hn
  rw [(hg2 n hn').1, (hg2 n hn').2, (hg1 n hn').1, (hg1 n hn').2, complex.mul_comm]
  rfl

/-- The FFT input of the `USE_KISSFFT` branch is the packed sequence. -/
theorem run_KISSFFT_inbuf_eq (s : DctIVDbl R) :
    s.run_KISSFFT_inbuf = packed s.NF s.dctIVconfig s.in_ := by
  unfold DctIVDbl.run_KISSFFT_inbuf packed
  exact fillLoop_spec _ (s.NF / 2) (by have := s.NF_lt; omega) _ (by simp)

/-- The input buffer after `run()` (`USE_OWN_FFT`), for even `NF`: it holds
the real and imaginary parts of the packed sequence, interleaved. -/
theorem run_in_spec (fft : FFT R) (s : DctIVDbl R) (heven : s.NF % 2 = 0)
    (hin : s.in_.length = s.NF) :
    (s.run fft).in_.length = s.NF ∧
    ∀ n, n < s.NF / 2 →
      (s.run fft).in_.getD (2 * n) 0 = ((packed s.NF s.dctIVconfig s.in_).getD n 0).re ∧
      (s.run fft).in_.getD (2 * n + 1) 0 = ((packed s.NF s.dctIVconfig s.in_).getD n 0).im := by
  obtain ⟨hl1, hg1⟩ := run_reverse_spec s.NF s.NF_lt heven s.in_ hin
  obtain ⟨hl2, hg2⟩ := run_prerotate_spec s.NF s.NF_lt s.dctIVconfig _ hl1
  refine ⟨hl2, fun n hn => ?_⟩
  rw [packed_getD _ _ _ _ hn]
  constructor
  · refine ((hg2 n hn).1).trans ?_
    rw [(hg1 n hn).1, (hg1 n hn).2]
    simp only [complex.mul]
    ring
  · refine ((hg2 n hn).2).trans ?_
    rw [(hg1 n hn).1, (hg1 n hn).2]
    simp only [complex.mul]
    ring

/-- The output buffer after `run()` (`USE_OWN_FFT`), for even `NF`, in terms
of the FFT output `Y` on the packed sequence: `out[2n] = 2·Re(twiddle[n]·Y[n])`
and `out[NF-2n-1] = -2·Im(twiddle[n]·Y[n])`, except that the position
`NF / 2`, when it is odd, holds `+2·Im(twiddle[n]·Y[n])`. -/
theorem run_out_spec (fft : FFT R) (s : DctIVDbl R) (heven : s.NF % 2 = 0)
    (hin : s.in_.length = s.NF) (hout : s.out.length = s.NF) :
    (s.run fft).out.length = s.NF ∧
    ∀ n, n < s.NF / 2 →
      (s.run fft).out.getD (2 * n) 0
        = 2 * ((s.dctIVconfig.getD n 0).mul
            ((fft false (packed s.NF s.dctIVconfig s.in_) (s.NF / 2)).getD n 0)).re ∧
      (s.run fft).out.getD (s.NF - 2 * n - 1) 0
        = (if 2 * n + 1 = s.NF / 2 then (2 : R) else -2) * ((s.dctIVconfig.getD n 0).mul
            ((fft false (packed s.NF s.dctIVconfig s.in_) (s.NF / 2)).getD n 0)).im := by
  have hib := run_inbuf_eq s heven hin
  unfold DctIVDbl.run_inbuf at hib
  obtain ⟨hl3, hg3⟩ := run_postrotate_spec s.NF s.NF_lt s.dctIVconfig
    (fft false (packed s.NF s.dctIVconfig s.in_) (s.NF / 2)) s.out hout
  obtain ⟨hl4, hg4⟩ := run_negswap_spec s.NF s.NF_lt heven _ hl3
  have hrun : (s.run fft).out = run_negswap s.NF s.NF_lt (run_postrotate s.NF s.NF_lt s.dctIVconfig
      (fft false (packed s.NF s.dctIVconfig s.in_) (s.NF / 2)) s.out) := by
    unfold DctIVDbl.run
    simp only
    rw [hib]
  rw [hrun]
  refine ⟨hl4, fun n hn => ⟨?_, ?_⟩⟩
  · rw [hg4 (2 * n) (by omega), if_neg (by omega), (hg3 n hn).1]
    simp only [complex.mul]
    ring
  · rw [hg4 (s.NF - 2 * n - 1) (by omega)]
    by_cases hm : 2 * n + 1 = s.NF / 2
    · have e : s.NF - 2 * n - 1 = 2 * n + 1 := by omega
      rw [if_neg (by omega), if_pos hm, e, (hg3 n hn).2]
      simp only [complex.mul]
      ring
    · have e : s.NF - (s.NF - 2 * n - 1) = 2 * n + 1 := by omega
      rw [if_pos ⟨by omega, by omega⟩, if_neg hm, e, (hg3 n hn).2]
      simp only [complex.mul]
      ring

/-- The output buffer after `run()` (`USE_KISSFFT`), for even `NF`. -/
theorem run_KISSFFT_out_spec (fft : FFT R) (s : DctIVDbl R) (heven : s.NF % 2 = 0)
    (hout : s.out.length = s.NF) :
    (s.run_KISSFFT fft).out.length = s.NF ∧
    ∀ n, n < s.NF / 2 →
      (s.run_KISSFFT fft).out.getD (2 * n) 0
        = 2 * ((s.dctIVconfig.getD n 0).mul
            ((fft false (packed s.NF s.dctIVconfig s.in_) (s.NF / 2)).getD n 0)).re ∧
      (s.run_KISSFFT fft).out.getD (s.NF - 2 * n - 1) 0
        = -2 * ((s.dctIVconfig.getD n 0).mul
            ((fft false (packed s.NF s.dctIVconfig s.in_) (s.NF / 2)).getD n 0)).im := by
  obtain ⟨hl, hg⟩ := kissLoop_spec
    (fun n => ((s.dctIVconfig.getD n 0).mul
      ((fft false (packed s.NF s.dctIVconfig s.in_) (s.NF / 2)).getD n 0)).re * 2)
    (fun n => -((s.dctIVconfig.getD n 0).mul
      ((fft false (packed s.NF s.dctIVconfig s.in_) (s.NF / 2)).getD n 0)).im * 2)
    s.NF s.NF_lt heven s.out hout
  have hrun : (s.run_KISSFFT fft).out = forU16 1 (s.NF / 2) (by have := s.NF_lt; omega)
      Nat.one_pos (kissBody
        (fun n => ((s.dctIVconfig.getD n 0).mul
          ((fft false (packed s.NF s.dctIVconfig s.in_) (s.NF / 2)).getD n 0)).re * 2)
        (fun n => -((s.dctIVconfig.getD n 0).mul
          ((fft false (packed s.NF s.dctIVconfig s.in_) (s.NF / 2)).getD n 0)).im * 2) s.NF)
      0 s.out := by
    unfold DctIVDbl.run_KISSFFT
    simp only
    rw [run_KISSFFT_inbuf_eq]
    rfl
  rw [hrun]
  refine ⟨hl, fun n hn => ⟨?_, ?_⟩⟩
  · rw [(hg n hn).1]; ring
  · rw [(hg n hn).2]; ring

/-! ## The direct evaluator -/

theorem accFold (k : Nat) (t : Nat → R) (Y : List R) :
    ∀ j, (List.range j).foldl (fun X n => X.set k (X.getD k 0 + t n)) Y
      = Y.set k (Y.getD k 0 + Finset.sum (Finset.range j) t) := by
  intro j
  by_cases hk : k < Y.length
  · induction j with
    | zero =>
      apply ext_getD 0
      · simp
      · intro i _
        simp only [List.range_zero, List.foldl_nil, Finset.range_zero, Finset.sum_empty, add_zero,
          getD_set]
        by_cases h : k = i
        · rw [if_pos ⟨h, by omega⟩, h]
        · rw [if_neg (by omega)]
    | succ j ih =>
      rw [List.range_succ, List.foldl_append, ih]
      simp only [List.foldl_cons, List.foldl_nil, List.set_set, getD_set]
      simp [hk, Finset.sum_range_succ, add_assoc]
  · have hno : ∀ (Z : List R) (v : R), Z.length = Y.length → Z.set k v = Z := fun Z v hZ =>
      List.set_eq_of_length_le (by omega)
    rw [hno Y _ rfl]
    induction j with
    | zero => rfl
    | succ j ih =>
      rw [List.range_succ, List.foldl_append, ih]
      exact hno Y _ rfl

/-- The buffer `X` after `DctIVDirectDbl`: position `k < N` holds twice the
sum of the `N` terms; the length is unchanged. -/
theorem DctIVDirectDbl_spec (L : Libm R) (N : Nat) (hN : N < 65536) (tw X : List R) :
    (DctIVDirectDbl L N hN tw X).length = X.length ∧
    ∀ k, k < N → k < X.length →
      (DctIVDirectDbl L N hN tw X).getD k 0
        = 2 * Finset.sum (Finset.range N) (fun n => directTerm L N tw k n) := by
  have hbody : (fun (k : Nat) (X : List R) =>
        let X := X.set k 0
        let X := forU16 1 N (by omega) Nat.one_pos
          (fun n X =>
            X.set k (X.getD k 0 + tw.getD n 0 *
              L.cos (L.acos (-1) / (N : R) * ((n : R) + 1 / 2) * ((k : R) + 1 / 2))))
          0 X
        X.set k (X.getD k 0 * 2))
      = (fun k X => X.set k (Finset.sum (Finset.range N) (fun n => directTerm L N tw k n) * 2)) := by
    funext k X
    simp only
    have h2 := accFold k (fun n => directTerm L N tw k n) (X.set k 0) N
    simp only [directTerm] at h2
    rw [forU16_from_zero, h2]
    simp only [directTerm, List.set_set, getD_set, List.length_set]
    by_cases hk : k < X.length
    · simp [hk]
    · rw [List.set_eq_of_length_le (by omega), List.set_eq_of_length_le (by omega)]
  unfold DctIVDirectDbl
  simp only
  rw [hbody, forU16_from_zero]
  obtain ⟨hl, hg⟩ := fillFold (0 : R)
    (fun k => Finset.sum (Finset.range N) (fun n => directTerm L N tw k n) * 2) X N
  refine ⟨hl, fun k hk hkX => ?_⟩
  rw [hg, if_pos ⟨hk, hkX⟩, mul_comm]

/-! ## The constructor -/

theorem wrapI32_twiddle (n : Nat) (hn : n < 65536) : wrapI32 (8 * (n : Int) + 1) = 8 * (n : Int) + 1 := by
  unfold wrapI32
  omega

theorem set_replicate_zero {α : Type} [Zero α] (m n : Nat) :
    (List.replicate m (0 : α)).set n 0 = List.replicate m 0 := by
  apply ext_getD 0
  · simp
  · intro i _
    rw [getD_set]
    by_cases h : n = i ∧ i < (List.replicate m (0 : α)).length
    · rw [if_pos h, List.getD_eq_getElem _ _ h.2]
      simp
    · rw [if_neg h]

theorem foldl_fixed {σ : Type} (f : σ → Nat → σ) (s : σ) (hf : ∀ j, f s j = s) :
    ∀ k, (List.range k).foldl f s = s := by
  intro k
  induction k with
  | zero => rfl
  | succ k ih => rw [List.range_succ, List.foldl_append, ih]; exact hf k

/-- The twiddle table built by the constructor, entry by entry. -/
theorem twiddleLoop_spec (L : Libm R) (N : Nat) (hN : N + 1 ≤ 65536) :
    twiddleLoop L N hN = (List.range N).map (fun n =>
      (⟨L.cos (-L.acos (-1) * ((8 * n + 1 : Nat) : R) / (8 * (N : R) * 2)),
        L.sin (-L.acos (-1) * ((8 * n + 1 : Nat) : R) / (8 * (N : R) * 2))⟩ : complex R)) := by
  unfold twiddleLoop
  simp only
  rw [fillLoop_spec _ N hN _ (by simp)]
  apply List.map_congr_left
  intro n hn
  have hn' : n < 65536 := by have := List.mem_range.mp hn; omega
  rw [wrapI32_twiddle n hn']
  have e : (((8 * (n : Int) + 1 : Int)) : R) = ((8 * n + 1 : Nat) : R) := by push_cast; ring
  rw [e]

/-- The engine the constructor builds. -/
theorem new_spec (L : Libm R) (NF : Nat) (h : NF < 65536) :
    (DctIVDbl.new L NF h).NF = NF ∧
    (DctIVDbl.new L NF h).in_ = List.replicate NF 0 ∧
    (DctIVDbl.new L NF h).out = List.replicate NF 0 ∧
    (DctIVDbl.new L NF h).dctIVconfig = twiddleLoop L (NF / 2) (by omega) := by
  have hio : forU16 1 NF (by omega) Nat.one_pos
      (fun n (io : List R × List R) => (io.1.set n 0, io.2.set n 0)) 0
      (List.replicate NF 0, List.replicate NF 0)
      = (List.replicate NF 0, List.replicate NF 0) := by
    rw [forU16_from_zero]
    apply foldl_fixed
    intro j
    simp only [set_replicate_zero]
  refine ⟨rfl, ?_, ?_, rfl⟩
  · unfold DctIVDbl.new
    simp only [hio]
  · unfold DctIVDbl.new
    simp only [hio]

/-! ## Results on the direct evaluator and the constructor -/

theorem realLibm_pi : realLibm.acos (-1) = Real.pi := Real.arccos_neg_one

/-- C2: for every `N ≥ 1`, every input `tw` of length `N` and every `k < N`,
`DctIVDirectDbl(N, tw, X)` leaves `X[k] = 2 · Σ_{n<N} tw[n] · cos(π/N · (n+0.5) · (k+0.5))`,
whatever the divisibility of `N`; for `N = 8` and input `[1,0,0,0,0,0,0,0]` it
leaves `X[k] = 2 · cos(π/8 · (k+0.5) · 0.5)`. -/
theorem C2_direct_evaluator_formula (N : Nat) (hN : N < 65536) (tw X : List ℝ)
    (h1 : 1 ≤ N) (htw : tw.length = N) (hX : X.length = N) :
    (∀ k, k < N →
      (DctIVDirectDbl realLibm N hN tw X).getD k 0
        = 2 * Finset.sum (Finset.range N) (fun n =>
            tw.getD n 0 * Real.cos (Real.pi / (N : ℝ) * ((n : ℝ) + 1 / 2) * ((k : ℝ) + 1 / 2)))) ∧
    (N = 8 → tw = [1, 0, 0, 0, 0, 0, 0, 0] → ∀ k, k < 8 →
      (DctIVDirectDbl realLibm N hN tw X).getD k 0
        = 2 * Real.cos (Real.pi / 8 * ((k : ℝ) + 1 / 2) * (1 / 2))) := by
  have hgen : ∀ k, k < N →
      (DctIVDirectDbl realLibm N hN tw X).getD k 0
        = 2 * Finset.sum (Finset.range N) (fun n =>
            tw.getD n 0 * Real.cos (Real.pi / (N : ℝ) * ((n : ℝ) + 1 / 2) * ((k : ℝ) + 1 / 2))) := by
    intro k hk
    rw [(DctIVDirectDbl_spec realLibm N hN tw X).2 k hk (by omega)]
    simp only [directTerm, realLibm_pi]
    rfl
  refine ⟨hgen, ?_⟩
  intro h8 hvec k hk
  subst h8
  subst hvec
  rw [hgen k hk]
  simp only [Finset.sum_range_succ, Finset.sum_range_zero]
  simp only [List.getD_cons_zero, List.getD_cons_succ, List.getD_nil, zero_mul, add_zero,
    zero_add, one_mul, Nat.cast_zero, Nat.cast_ofNat]
  congr 2
  ring

/-- Instance of C2 at `N = 8` with the unit impulse as input. -/
theorem C2_direct_evaluator_formula_witness :
    (∀ k, k < 8 →
      (DctIVDirectDbl realLibm 8 (by decide) [1, 0, 0, 0, 0, 0, 0, 0] (List.replicate 8 0)).getD k 0
        = 2 * Finset.sum (Finset.range 8) (fun n =>
            ([1, 0, 0, 0, 0, 0, 0, 0] : List ℝ).getD n 0
              * Real.cos (Real.pi / ((8 : ℕ) : ℝ) * ((n : ℝ) + 1 / 2) * ((k : ℝ) + 1 / 2)))) ∧
    (8 = 8 → ([1, 0, 0, 0, 0, 0, 0, 0] : List ℝ) = [1, 0, 0, 0, 0, 0, 0, 0] → ∀ k, k < 8 →
      (DctIVDirectDbl realLibm 8 (by decide) [1, 0, 0, 0, 0, 0, 0, 0] (List.replicate 8 0)).getD k 0
        = 2 * Real.cos (Real.pi / 8 * ((k : ℝ) + 1 / 2) * (1 / 2))) :=
  C2_direct_evaluator_formula 8 (by decide) [1, 0, 0, 0, 0, 0, 0, 0] (List.replicate 8 0)
    (by decide) rfl rfl

/-- C3: for every transform size `NF` with `NF / 2 ≥ 1`, the table built by
the constructor has `NF / 2` entries and entry `n` has real part
`cos(-π(8n+1)/(16·(NF/2)))` and imaginary part `sin(-π(8n+1)/(16·(NF/2)))`,
that is, `twiddle[n] = exp(-iπ(8n+1)/(16·(NF/2)))`; the `int` expression
`8 * n + 1` does not wrap for any `uint16_t` value `n`, and the counter
does not wrap when it is incremented inside the loop. -/
theorem C3_twiddle_table (NF : Nat) (h : NF < 65536) (h1 : 1 ≤ NF / 2) :
    (DctIVDbl.new realLibm NF h).dctIVconfig.length = NF / 2 ∧
    (∀ n, n < NF / 2 →
      (((DctIVDbl.new realLibm NF h).dctIVconfig.getD n 0).re
        = Real.cos (-Real.pi * (8 * (n : ℝ) + 1) / (16 * ((NF / 2 : ℕ) : ℝ))) ∧
       ((DctIVDbl.new realLibm NF h).dctIVconfig.getD n 0).im
        = Real.sin (-Real.pi * (8 * (n : ℝ) + 1) / (16 * ((NF / 2 : ℕ) : ℝ))) ∧
       ((DctIVDbl.new realLibm NF h).dctIVconfig.getD n 0).toComplex
        = Complex.exp (((-Real.pi * (8 * (n : ℝ) + 1) / (16 * ((NF / 2 : ℕ) : ℝ)) : ℝ) : ℂ)
            * Complex.I))) ∧
    (∀ n : Nat, n < 65536 → wrapI32 (8 * (n : Int) + 1) = 8 * (n : Int) + 1) ∧
    (∀ n : Nat, n < NF / 2 → wrapU16 (n + 1) = n + 1) := by
  have htab := (new_spec realLibm NF h).2.2.2
  rw [twiddleLoop_spec] at htab
  refine ⟨by rw [htab]; simp, ?_, wrapI32_twiddle, ?_⟩
  · intro n hn
    have hget : (DctIVDbl.new realLibm NF h).dctIVconfig.getD n 0
        = ⟨Real.cos (-Real.pi * (8 * (n : ℝ) + 1) / (16 * ((NF / 2 : ℕ) : ℝ))),
           Real.sin (-Real.pi * (8 * (n : ℝ) + 1) / (16 * ((NF / 2 : ℕ) : ℝ)))⟩ := by
      rw [htab, List.getD_eq_getElem _ _ (by simpa using hn)]
      simp only [List.getElem_map, List.getElem_range, realLibm_pi]
      have e : -Real.pi * ((8 * n + 1 : ℕ) : ℝ) / (8 * ((NF / 2 : ℕ) : ℝ) * 2)
          = -Real.pi * (8 * (n : ℝ) + 1) / (16 * ((NF / 2 : ℕ) : ℝ)) := by
        push_cast
        ring
      rw [e]
      rfl
    rw [hget]
    refine ⟨rfl, rfl, ?_⟩
    apply Complex.ext
    · simp only [complex.toComplex, Complex.exp_ofReal_mul_I_re]
    · simp only [complex.toComplex, Complex.exp_ofReal_mul_I_im]
  · intro n hn
    exact Nat.mod_eq_of_lt (by omega)

/-- Instance of C3 at `NF = 8`. -/
theorem C3_twiddle_table_witness :
    (DctIVDbl.new realLibm 8 (by decide)).dctIVconfig.length = 8 / 2 ∧
    (∀ n, n < 8 / 2 →
      (((DctIVDbl.new realLibm 8 (by decide)).dctIVconfig.getD n 0).re
        = Real.cos (-Real.pi * (8 * (n : ℝ) + 1) / (16 * ((8 / 2 : ℕ) : ℝ))) ∧
       ((DctIVDbl.new realLibm 8 (by decide)).dctIVconfig.getD n 0).im
        = Real.sin (-Real.pi * (8 * (n : ℝ) + 1) / (16 * ((8 / 2 : ℕ) : ℝ))) ∧
       ((DctIVDbl.new realLibm 8 (by decide)).dctIVconfig.getD n 0).toComplex
        = Complex.exp (((-Real.pi * (8 * (n : ℝ) + 1) / (16 * ((8 / 2 : ℕ) : ℝ)) : ℝ) : ℂ)
            * Complex.I))) ∧
    (∀ n : Nat, n < 65536 → wrapI32 (8 * (n : Int) + 1) = 8 * (n : Int) + 1) ∧
    (∀ n : Nat, n < 8 / 2 → wrapU16 (n + 1) = n + 1) :=
  C3_twiddle_table 8 (by decide) (by decide)

/-- C4, as the code behaves: construction with `NF = 6` (not a multiple of 4)
and with `NF = 0` does not fail with `InvalidSizeError`; it yields an engine. -/
theorem C4_counterexample :
    (DctIVDbl.create realLibm 6 (by decide) ≠ Except.error ConstructionError.InvalidSizeError ∧
      ∃ e, DctIVDbl.create realLibm 6 (by decide) = Except.ok e) ∧
    (DctIVDbl.create realLibm 0 (by decide) ≠ Except.error ConstructionError.InvalidSizeError ∧
      ∃ e, DctIVDbl.create realLibm 0 (by decide) = Except.ok e) ∧
    ¬ (0 < 6 ∧ 6 % 4 = 0) := by
  refine ⟨⟨?_, _, rfl⟩, ⟨?_, _, rfl⟩, by decide⟩
  · intro hc
    simp [DctIVDbl.create] at hc
  · intro hc
    simp [DctIVDbl.create] at hc

/-- C4 amended: the constructor checks nothing; for every `uint16_t` size
`NF`, multiple of 4 or not, zero or not, it yields an engine of size `NF` with
zeroed input and output buffers of length `NF` and a twiddle table of
`NF / 2` entries; in particular construction with `NF = 8` succeeds. -/
theorem C4_constructor_total (NF : Nat) (h : NF < 65536) :
    ∃ e, DctIVDbl.create realLibm NF h = Except.ok e ∧ e.NF = NF ∧
      e.in_ = List.replicate NF 0 ∧ e.out = List.replicate NF 0 ∧
      e.dctIVconfig.length = NF / 2 := by
  obtain ⟨hNF, hi, ho, ht⟩ := new_spec realLibm NF h
  refine ⟨DctIVDbl.new realLibm NF h, rfl, hNF, hi, ho, ?_⟩
  rw [ht, twiddleLoop_spec]
  simp

/-- Instance of the amended C4 at `NF = 8`. -/
theorem C4_constructor_total_witness :
    ∃ e, DctIVDbl.create realLibm 8 (by decide) = Except.ok e ∧ e.NF = 8 ∧
      e.in_ = List.replicate 8 0 ∧ e.out = List.replicate 8 0 ∧
      e.dctIVconfig.length = 8 / 2 :=
  C4_constructor_total 8 (by decide)

/-! ## Results on the structure of `run()` -/

theorem index_cases (NF i : Nat) (heven : NF % 2 = 0) (hi : i < NF) :
    (∃ n, n < NF / 2 ∧ i = 2 * n) ∨ (∃ n, n < NF / 2 ∧ i = NF - 2 * n - 1) := by
  by_cases h : i % 2 = 0
  · exact Or.inl ⟨i / 2, by omega, by omega⟩
  · exact Or.inr ⟨(NF - 1 - i) / 2, by omega, by omega⟩

/-- The output of `run()` does not depend on what the output buffer held
before, nor on anything but `NF`, the twiddle table and the input buffer. -/
theorem run_out_congr (fft : FFT R) (s t : DctIVDbl R) (heven : s.NF % 2 = 0)
    (hNF : t.NF = s.NF) (htw : t.dctIVconfig = s.dctIVconfig) (hx : t.in_ = s.in_)
    (hin : s.in_.length = s.NF) (hout : s.out.length = s.NF) (hout2 : t.out.length = s.NF) :
    (t.run fft).out = (s.run fft).out := by
  obtain ⟨hl1, hg1⟩ := run_out_spec fft s heven hin hout
  obtain ⟨hl2, hg2⟩ := run_out_spec fft t (by rw [hNF]; exact heven) (by rw [hx, hNF]; exact hin)
    (by rw [hNF]; exact hout2)
  rw [hNF, htw, hx] at hg2
  apply ext_getD 0
  · rw [hl1, hl2, hNF]
  · intro i hi
    rw [hl2, hNF] at hi
    rcases index_cases s.NF i heven hi with ⟨n, hn, rfl⟩ | ⟨n, hn, rfl⟩
    · rw [(hg1 n hn).1, (hg2 n hn).1]
    · rw [(hg1 n hn).2, (hg2 n hn).2]

/-- C9: with the same FFT function and the same twiddle table, for `NF` a
positive multiple of 4, (1) the odd-index reversal followed by the
pre-rotation of the `USE_OWN_FFT` branch hands the FFT the same sequence as
the `USE_KISSFFT` branch, namely `twiddle[n] * (x[2n] + i·x[NF-2n-1])`, and
(2) the post-rotation followed by the negate-and-swap reversal leaves
`out[2n] = 2·Re(twiddle[n]·Y[n])` and `out[NF-2n-1] = -2·Im(twiddle[n]·Y[n])`
for `Y` the FFT of the packed input, the same output buffer as the
`USE_KISSFFT` branch; the sequence of (1) is the one `run()` passes to the
FFT. -/
theorem C9_packing_backend_independent (fft : FFT R) (s : DctIVDbl R)
    (hpos : 0 < s.NF) (h4 : s.NF % 4 = 0)
    (hin : s.in_.length = s.NF) (hout : s.out.length = s.NF) :
    (s.run_inbuf = s.run_KISSFFT_inbuf ∧ s.run_inbuf.length = s.NF / 2 ∧
      ∀ n, n < s.NF / 2 →
        s.run_inbuf.getD n 0
          = (s.dctIVconfig.getD n 0).mul ⟨s.in_.getD (2 * n) 0, s.in_.getD (s.NF - 2 * n - 1) 0⟩) ∧
    (∀ n, n < s.NF / 2 →
      (s.run fft).out.getD (2 * n) 0
        = 2 * ((s.dctIVconfig.getD n 0).mul
            ((fft false s.run_KISSFFT_inbuf (s.NF / 2)).getD n 0)).re ∧
      (s.run fft).out.getD (s.NF - 2 * n - 1) 0
        = -2 * ((s.dctIVconfig.getD n 0).mul
            ((fft false s.run_KISSFFT_inbuf (s.NF / 2)).getD n 0)).im) ∧
    (s.run fft).out = (s.run_KISSFFT fft).out ∧
    (s.run fft).out = run_negswap s.NF s.NF_lt (run_postrotate s.NF s.NF_lt s.dctIVconfig
      (fft false s.run_inbuf (s.NF / 2)) s.out) := by
  have heven : s.NF % 2 = 0 := by omega
  obtain ⟨hl1, hg1⟩ := run_out_spec fft s heven hin hout
  obtain ⟨hl2, hg2⟩ := run_KISSFFT_out_spec fft s heven hout
  have hown : ∀ n, n < s.NF / 2 →
      (s.run fft).out.getD (2 * n) 0
        = 2 * ((s.dctIVconfig.getD n 0).mul
            ((fft false (packed s.NF s.dctIVconfig s.in_) (s.NF / 2)).getD n 0)).re ∧
      (s.run fft).out.getD (s.NF - 2 * n - 1) 0
        = -2 * ((s.dctIVconfig.getD n 0).mul
            ((fft false (packed s.NF s.dctIVconfig s.in_) (s.NF / 2)).getD n 0)).im := by
    intro n hn
    refine ⟨(hg1 n hn).1, ?_⟩
    rw [(hg1 n hn).2, if_neg (by omega)]
  refine ⟨⟨?_, ?_, ?_⟩, ?_, ?_, rfl⟩
  · rw [run_inbuf_eq s heven hin, run_KISSFFT_inbuf_eq]
  · rw [run_inbuf_eq s heven hin, packed_length]
  · intro n hn
    rw [run_inbuf_eq s heven hin, packed_getD _ _ _ _ hn]
  · rw [run_KISSFFT_inbuf_eq]
    exact hown
  · apply ext_getD 0
    · rw [hl1, hl2]
    · intro i hi
      rw [hl1] at hi
      rcases index_cases s.NF i heven hi with ⟨n, hn, rfl⟩ | ⟨n, hn, rfl⟩
      · rw [(hown n hn).1, (hg2 n hn).1]
      · rw [(hown n hn).2, (hg2 n hn).2]

/-- Instance of C9 on an engine of size 4 over the rationals. -/
theorem C9_packing_backend_independent_witness :
    (sampleEngine.run_inbuf = sampleEngine.run_KISSFFT_inbuf ∧
      sampleEngine.run_inbuf.length = sampleEngine.NF / 2 ∧
      ∀ n, n < sampleEngine.NF / 2 →
        sampleEngine.run_inbuf.getD n 0
          = (sampleEngine.dctIVconfig.getD n 0).mul
              ⟨sampleEngine.in_.getD (2 * n) 0,
               sampleEngine.in_.getD (sampleEngine.NF - 2 * n - 1) 0⟩) ∧
    (∀ n, n < sampleEngine.NF / 2 →
      (sampleEngine.run idFFT).out.getD (2 * n) 0
        = 2 * ((sampleEngine.dctIVconfig.getD n 0).mul
            ((idFFT false sampleEngine.run_KISSFFT_inbuf (sampleEngine.NF / 2)).getD n 0)).re ∧
      (sampleEngine.run idFFT).out.getD (sampleEngine.NF - 2 * n - 1) 0
        = -2 * ((sampleEngine.dctIVconfig.getD n 0).mul
            ((idFFT false sampleEngine.run_KISSFFT_inbuf (sampleEngine.NF / 2)).getD n 0)).im) ∧
    (sampleEngine.run idFFT).out = (sampleEngine.run_KISSFFT idFFT).out ∧
    (sampleEngine.run idFFT).out = run_negswap sampleEngine.NF sampleEngine.NF_lt
      (run_postrotate sampleEngine.NF sampleEngine.NF_lt sampleEngine.dctIVconfig
        (idFFT false sampleEngine.run_inbuf (sampleEngine.NF / 2)) sampleEngine.out) :=
  C9_packing_backend_independent idFFT sampleEngine (by decide) (by decide) rfl rfl

/-- C8 amended: for `NF` a positive multiple of 4, `run()` leaves in the input
buffer, which keeps its length `NF`, the pre-rotated packed sequence:
`in[2n] = Re(twiddle[n]·(x[2n] + i·x[NF-2n-1]))` and
`in[2n+1] = Im(twiddle[n]·(x[2n] + i·x[NF-2n-1]))` for `n < NF / 2`, where `x`
is the buffer before the call; the twiddle table and `NF` are unchanged. -/
theorem C8_input_buffer_after_run (fft : FFT R) (s : DctIVDbl R)
    (hpos : 0 < s.NF) (h4 : s.NF % 4 = 0) (hin : s.in_.length = s.NF) :
    (s.run fft).in_.length = s.NF ∧
    (∀ n, n < s.NF / 2 →
      (s.run fft).in_.getD (2 * n) 0
        = ((s.dctIVconfig.getD n 0).mul
            ⟨s.in_.getD (2 * n) 0, s.in_.getD (s.NF - 2 * n - 1) 0⟩).re ∧
      (s.run fft).in_.getD (2 * n + 1) 0
        = ((s.dctIVconfig.getD n 0).mul
            ⟨s.in_.getD (2 * n) 0, s.in_.getD (s.NF - 2 * n - 1) 0⟩).im) ∧
    (s.run fft).dctIVconfig = s.dctIVconfig ∧ (s.run fft).NF = s.NF := by
  obtain ⟨hl, hg⟩ := run_in_spec fft s (by omega) hin
  refine ⟨hl, fun n hn => ?_, rfl, rfl⟩
  rw [← packed_getD _ _ _ _ hn]
  exact hg n hn

/-- Instance of the amended C8 on an engine of size 4 over the rationals. -/
theorem C8_input_buffer_after_run_witness :
    (sampleEngine.run idFFT).in_.length = sampleEngine.NF ∧
    (∀ n, n < sampleEngine.NF / 2 →
      (sampleEngine.run idFFT).in_.getD (2 * n) 0
        = ((sampleEngine.dctIVconfig.getD n 0).mul
            ⟨sampleEngine.in_.getD (2 * n) 0,
             sampleEngine.in_.getD (sampleEngine.NF - 2 * n - 1) 0⟩).re ∧
      (sampleEngine.run idFFT).in_.getD (2 * n + 1) 0
        = ((sampleEngine.dctIVconfig.getD n 0).mul
            ⟨sampleEngine.in_.getD (2 * n) 0,
             sampleEngine.in_.getD (sampleEngine.NF - 2 * n - 1) 0⟩).im) ∧
    (sampleEngine.run idFFT).dctIVconfig = sampleEngine.dctIVconfig ∧
    (sampleEngine.run idFFT).NF = sampleEngine.NF :=
  C8_input_buffer_after_run idFFT sampleEngine (by decide) (by decide) rfl

/-- C7 amended: for `NF` a positive multiple of 4, when the caller writes the
same input into the input buffer again before the second call, the second
`run()` leaves the output buffer with exactly the values the first call
left: the output is a function of `NF`, the twiddle table and the contents of
the input buffer at the call, and of nothing else. -/
theorem C7_rerun_after_rewriting_input (fft : FFT R) (s : DctIVDbl R)
    (hpos : 0 < s.NF) (h4 : s.NF % 4 = 0)
    (hin : s.in_.length = s.NF) (hout : s.out.length = s.NF) :
    (((s.run fft).setInput s.in_).run fft).out = (s.run fft).out := by
  have heven : s.NF % 2 = 0 := by omega
  exact run_out_congr fft s ((s.run fft).setInput s.in_) heven rfl rfl rfl hin hout
    (run_out_spec fft s heven hin hout).1

/-- Instance of the amended C7 on an engine of size 4 over the rationals. -/
theorem C7_rerun_after_rewriting_input_witness :
    (((sampleEngine.run idFFT).setInput sampleEngine.in_).run idFFT).out
      = (sampleEngine.run idFFT).out :=
  C7_rerun_after_rewriting_input idFFT sampleEngine (by decide) (by decide) rfl rfl

/-! ## The transform in exact real arithmetic -/

theorem dft_getD (L : Libm R) (y : List (complex R)) (n k : Nat) (hk : k < n) :
    (dft L false y n).getD k 0
      = ⟨Finset.sum (Finset.range n) (fun j =>
          ((y.getD j 0).mul ⟨L.cos (-1 * 2 * L.acos (-1) * (j : R) * (k : R) / (n : R)),
            L.sin (-1 * 2 * L.acos (-1) * (j : R) * (k : R) / (n : R))⟩).re),
         Finset.sum (Finset.range n) (fun j =>
          ((y.getD j 0).mul ⟨L.cos (-1 * 2 * L.acos (-1) * (j : R) * (k : R) / (n : R)),
            L.sin (-1 * 2 * L.acos (-1) * (j : R) * (k : R) / (n : R))⟩).im)⟩ := by
  unfold dft
  rw [List.getD_eq_getElem _ _ (by simpa using hk)]
  simp

theorem new_twiddle_getD (NF : Nat) (h : NF < 65536) (n : Nat) (hn : n < NF / 2) :
    (DctIVDbl.new realLibm NF h).dctIVconfig.getD n 0
      = ⟨Real.cos (-Real.pi * (8 * (n : ℝ) + 1) / (16 * ((NF / 2 : ℕ) : ℝ))),
         Real.sin (-Real.pi * (8 * (n : ℝ) + 1) / (16 * ((NF / 2 : ℕ) : ℝ)))⟩ := by
  have htab := (new_spec realLibm NF h).2.2.2
  rw [twiddleLoop_spec] at htab
  rw [htab, List.getD_eq_getElem _ _ (by simpa using hn)]
  simp only [List.getElem_map, List.getElem_range, realLibm_pi]
  have e : -Real.pi * ((8 * n + 1 : ℕ) : ℝ) / (8 * ((NF / 2 : ℕ) : ℝ) * 2)
      = -Real.pi * (8 * (n : ℝ) + 1) / (16 * ((NF / 2 : ℕ) : ℝ)) := by
    push_cast
    ring
  rw [e]
  rfl

/-- A sum over `2M` indices, split into the even indices `2j` and the odd
indices `2M - 1 - 2j`. -/
theorem sum_even_odd (f : Nat → ℝ) (M : Nat) :
    Finset.sum (Finset.range (2 * M)) f
      = Finset.sum (Finset.range M) (fun j => f (2 * j) + f (2 * M - 1 - 2 * j)) := by
  have h1 : ∀ K, Finset.sum (Finset.range (2 * K)) f
      = Finset.sum (Finset.range K) (fun j => f (2 * j) + f (2 * j + 1)) := by
    intro K
    induction K with
    | zero => simp
    | succ K ih =>
      rw [show 2 * (K + 1) = 2 * K + 1 + 1 from by ring, Finset.sum_range_succ,
        Finset.sum_range_succ, ih, Finset.sum_range_succ]
      ring
  rw [h1, Finset.sum_add_distrib, Finset.sum_add_distrib]
  congr 1
  rw [← Finset.sum_range_reflect]
  apply Finset.sum_congr rfl
  intro j hj
  have hj' : j < M := Finset.mem_range.mp hj
  congr 1
  omega

theorem cast_half (NF : Nat) (heven : NF % 2 = 0) : (NF : ℝ) = 2 * ((NF / 2 : ℕ) : ℝ) := by
  have h2 : NF = 2 * (NF / 2) := by omega
  have h3 : (NF : ℝ) = ((2 * (NF / 2) : ℕ) : ℝ) := congrArg _ h2
  rw [h3]
  push_cast
  ring

/-- The rotated FFT output, bin `k`: with the table of the constructor and the
forward DFT, `twiddle[k] · Y[k] = Σ_j (x[2j] + i·x[NF-2j-1]) · exp(-i·ψ)` for
`ψ = π/NF · (2j + 1/2) · (2k + 1/2)`; real and imaginary part. -/
theorem rotated_bin (NF : Nat) (h : NF < 65536) (heven : NF % 2 = 0) (x : List ℝ) (k : Nat)
    (hk : k < NF / 2) :
    (((DctIVDbl.new realLibm NF h).dctIVconfig.getD k 0).mul
        ((dft realLibm false (packed NF (DctIVDbl.new realLibm NF h).dctIVconfig x)
          (NF / 2)).getD k 0)).re
      = Finset.sum (Finset.range (NF / 2)) (fun j =>
          x.getD (2 * j) 0
              * Real.cos (Real.pi / (NF : ℝ) * (2 * (j : ℝ) + 1 / 2) * (2 * (k : ℝ) + 1 / 2))
            + x.getD (NF - 2 * j - 1) 0
              * Real.sin (Real.pi / (NF : ℝ) * (2 * (j : ℝ) + 1 / 2) * (2 * (k : ℝ) + 1 / 2))) ∧
    (((DctIVDbl.new realLibm NF h).dctIVconfig.getD k 0).mul
        ((dft realLibm false (packed NF (DctIVDbl.new realLibm NF h).dctIVconfig x)
          (NF / 2)).getD k 0)).im
      = Finset.sum (Finset.range (NF / 2)) (fun j =>
          x.getD (NF - 2 * j - 1) 0
              * Real.cos (Real.pi / (NF : ℝ) * (2 * (j : ℝ) + 1 / 2) * (2 * (k : ℝ) + 1 / 2))
            - x.getD (2 * j) 0
              * Real.sin (Real.pi / (NF : ℝ) * (2 * (j : ℝ) + 1 / 2) * (2 * (k : ℝ) + 1 / 2))) := by
  have hM : ((NF / 2 : ℕ) : ℝ) ≠ 0 := by
    have : 0 < NF / 2 := by omega
    exact_mod_cast this.ne'
  have hNM := cast_half NF heven
  have hterm : ∀ j : Nat,
      Real.pi / (NF : ℝ) * (2 * (j : ℝ) + 1 / 2) * (2 * (k : ℝ) + 1 / 2)
        = -(-Real.pi * (8 * (k : ℝ) + 1) / (16 * ((NF / 2 : ℕ) : ℝ))
            + -Real.pi * (8 * (j : ℝ) + 1) / (16 * ((NF / 2 : ℕ) : ℝ))
            + -1 * 2 * Real.pi * (j : ℝ) * (k : ℝ) / ((NF / 2 : ℕ) : ℝ)) := by
    intro j
    rw [hNM]
    field_simp
    ring
  rw [dft_getD realLibm _ _ _ hk, new_twiddle_getD NF h k hk]
  simp only [complex.mul, realLibm_pi]
  constructor
  · rw [Finset.mul_sum, Finset.mul_sum, ← Finset.sum_sub_distrib]
    apply Finset.sum_congr rfl
    intro j hj
    have hj' : j < NF / 2 := Finset.mem_range.mp hj
    rw [packed_getD _ _ _ _ hj', new_twiddle_getD NF h j hj', hterm j]
    simp only [complex.mul, realLibm]
    simp only [Real.cos_neg, Real.sin_neg, Real.cos_add, Real.sin_add]
    ring
  · rw [Finset.mul_sum, Finset.mul_sum, ← Finset.sum_add_distrib]
    apply Finset.sum_congr rfl
    intro j hj
    have hj' : j < NF / 2 := Finset.mem_range.mp hj
    rw [packed_getD _ _ _ _ hj', new_twiddle_getD NF h j hj', hterm j]
    simp only [complex.mul, realLibm]
    simp only [Real.cos_neg, Real.sin_neg, Real.cos_add, Real.sin_add]
    ring

theorem cos_reflect_one (N u : ℝ) (k : ℕ) (hN : N ≠ 0) :
    Real.cos (Real.pi / N * (N - u) * (2 * (k : ℝ) + 1 / 2))
      = Real.sin (Real.pi / N * u * (2 * (k : ℝ) + 1 / 2)) := by
  have harg : Real.pi / N * (N - u) * (2 * (k : ℝ) + 1 / 2)
      = (Real.pi / 2 - Real.pi / N * u * (2 * (k : ℝ) + 1 / 2)) + (k : ℝ) * (2 * Real.pi) := by
    field_simp
    ring
  rw [harg, Real.cos_add_nat_mul_two_pi, Real.cos_pi_div_two_sub]

theorem cos_reflect_both (M j k : ℕ) (hM : (M : ℝ) ≠ 0) :
    Real.cos (Real.pi / (2 * (M : ℝ)) * (2 * (M : ℝ) - (2 * (j : ℝ) + 1 / 2))
        * (2 * (M : ℝ) - (2 * (k : ℝ) + 1 / 2)))
      = -Real.cos (Real.pi / (2 * (M : ℝ)) * (2 * (j : ℝ) + 1 / 2) * (2 * (k : ℝ) + 1 / 2)) := by
  have harg : Real.pi / (2 * (M : ℝ)) * (2 * (M : ℝ) - (2 * (j : ℝ) + 1 / 2))
        * (2 * (M : ℝ) - (2 * (k : ℝ) + 1 / 2))
      = (Real.pi / (2 * (M : ℝ)) * (2 * (j : ℝ) + 1 / 2) * (2 * (k : ℝ) + 1 / 2) + Real.pi)
          + (((M : ℤ) - j - k - 1 : ℤ) : ℝ) * (2 * Real.pi) := by
    push_cast
    field_simp
    ring
  rw [harg, Real.cos_add_int_mul_two_pi, Real.cos_add_pi]

theorem cast_reflect (NF j : Nat) (hj : j < NF / 2) :
    ((NF - 2 * j - 1 : ℕ) : ℝ) + 1 / 2 = (NF : ℝ) - (2 * (j : ℝ) + 1 / 2) := by
  have h1 : NF - 2 * j - 1 + (2 * j + 1) = NF := by omega
  have h2 : (((NF - 2 * j - 1 + (2 * j + 1) : ℕ)) : ℝ) = (NF : ℝ) := congrArg _ h1
  push_cast at h2
  linarith

/-- The sum of the direct evaluator at an even output index `2k`, split into
the even and the odd input indices. -/
theorem direct_even_sum (NF : Nat) (heven : NF % 2 = 0) (x : List ℝ) (k : Nat)
    (hk : k < NF / 2) :
    Finset.sum (Finset.range NF) (fun m => directTerm realLibm NF x (2 * k) m)
      = Finset.sum (Finset.range (NF / 2)) (fun j =>
          x.getD (2 * j) 0
              * Real.cos (Real.pi / (NF : ℝ) * (2 * (j : ℝ) + 1 / 2) * (2 * (k : ℝ) + 1 / 2))
            + x.getD (NF - 2 * j - 1) 0
              * Real.sin (Real.pi / (NF : ℝ) * (2 * (j : ℝ) + 1 / 2) * (2 * (k : ℝ) + 1 / 2))) := by
  have hNF : (NF : ℝ) ≠ 0 := by
    have : 0 < NF := by omega
    exact_mod_cast this.ne'
  have hr : Finset.range NF = Finset.range (2 * (NF / 2)) := by
    congr 1
    omega
  rw [hr, sum_even_odd]
  apply Finset.sum_congr rfl
  intro j hj
  have hj' : j < NF / 2 := Finset.mem_range.mp hj
  have e1 : 2 * (NF / 2) - 1 - 2 * j = NF - 2 * j - 1 := by omega
  rw [e1]
  simp only [directTerm, realLibm_pi]
  simp only [realLibm]
  rw [cast_reflect NF j hj']
  push_cast
  rw [cos_reflect_one (NF : ℝ) _ k hNF]

/-- The sum of the direct evaluator at an odd output index `NF - 2k - 1`,
split into the even and the odd input indices. -/
theorem direct_odd_sum (NF : Nat) (heven : NF % 2 = 0) (x : List ℝ) (k : Nat)
    (hk : k < NF / 2) :
    Finset.sum (Finset.range NF) (fun m => directTerm realLibm NF x (NF - 2 * k - 1) m)
      = Finset.sum (Finset.range (NF / 2)) (fun j =>
          x.getD (2 * j) 0
              * Real.sin (Real.pi / (NF : ℝ) * (2 * (j : ℝ) + 1 / 2) * (2 * (k : ℝ) + 1 / 2))
            - x.getD (NF - 2 * j - 1) 0
              * Real.cos (Real.pi / (NF : ℝ) * (2 * (j : ℝ) + 1 / 2) * (2 * (k : ℝ) + 1 / 2))) := by
  have hNF : (NF : ℝ) ≠ 0 := by
    have : 0 < NF := by omega
    exact_mod_cast this.ne'
  have hM : ((NF / 2 : ℕ) : ℝ) ≠ 0 := by
    have : 0 < NF / 2 := by omega
    exact_mod_cast this.ne'
  have hNM := cast_half NF heven
  have hr : Finset.range NF = Finset.range (2 * (NF / 2)) := by
    congr 1
    omega
  rw [hr, sum_even_odd]
  apply Finset.sum_congr rfl
  intro j hj
  have hj' : j < NF / 2 := Finset.mem_range.mp hj
  have e1 : 2 * (NF / 2) - 1 - 2 * j = NF - 2 * j - 1 := by omega
  rw [e1]
  simp only [directTerm, realLibm_pi]
  simp only [realLibm]
  rw [cast_reflect NF j hj', cast_reflect NF k hk]
  have a1 : Real.pi / (NF : ℝ) * (((2 * j : ℕ) : ℝ) + 1 / 2) * ((NF : ℝ) - (2 * (k : ℝ) + 1 / 2))
      = Real.pi / (NF : ℝ) * ((NF : ℝ) - (2 * (k : ℝ) + 1 / 2)) * (2 * (j : ℝ) + 1 / 2) := by
    push_cast
    ring
  have a2 : Real.pi / (NF : ℝ) * (2 * (k : ℝ) + 1 / 2) * (2 * (j : ℝ) + 1 / 2)
      = Real.pi / (NF : ℝ) * (2 * (j : ℝ) + 1 / 2) * (2 * (k : ℝ) + 1 / 2) := by
    ring
  have a3 : Real.cos (Real.pi / (NF : ℝ) * ((NF : ℝ) - (2 * (j : ℝ) + 1 / 2))
        * ((NF : ℝ) - (2 * (k : ℝ) + 1 / 2)))
      = -Real.cos (Real.pi / (NF : ℝ) * (2 * (j : ℝ) + 1 / 2) * (2 * (k : ℝ) + 1 / 2)) := by
    rw [hNM]
    exact cos_reflect_both (NF / 2) j k hM
  rw [a1, cos_reflect_one (NF : ℝ) _ j hNF, a2, a3]
  ring

theorem realEngine_wf (NF : Nat) (h : NF < 65536) (x : List ℝ) (hx : x.length = NF) :
    (realEngine NF h x).dctIVconfig
        = (DctIVDbl.new realLibm (realEngine NF h x).NF (realEngine NF h x).NF_lt).dctIVconfig ∧
    (realEngine NF h x).in_.length = (realEngine NF h x).NF ∧
    (realEngine NF h x).out.length = (realEngine NF h x).NF := by
  refine ⟨rfl, hx, ?_⟩
  have ho : (realEngine NF h x).out = List.replicate NF 0 := (new_spec realLibm NF h).2.2.1
  rw [ho]
  simp
  rfl

/-- The output of `run()` against the direct evaluator, for every even `NF`,
with the table of the constructor and the forward DFT: equal at every
position, except for a change of sign at position `NF / 2` when it is odd. -/
theorem run_vs_direct (s : DctIVDbl ℝ) (X : List ℝ) (hpos : 0 < s.NF) (heven : s.NF % 2 = 0)
    (htw : s.dctIVconfig = (DctIVDbl.new realLibm s.NF s.NF_lt).dctIVconfig)
    (hin : s.in_.length = s.NF) (hout : s.out.length = s.NF) (hX : X.length = s.NF) :
    (s.run (dft realLibm)).out.length = s.NF ∧
    ∀ n, n < s.NF / 2 →
      (s.run (dft realLibm)).out.getD (2 * n) 0
        = (DctIVDirectDbl realLibm s.NF s.NF_lt s.in_ X).getD (2 * n) 0 ∧
      (s.run (dft realLibm)).out.getD (s.NF - 2 * n - 1) 0
        = (if 2 * n + 1 = s.NF / 2 then (-1 : ℝ) else 1)
          * (DctIVDirectDbl realLibm s.NF s.NF_lt s.in_ X).getD (s.NF - 2 * n - 1) 0 := by
  obtain ⟨hl, hg⟩ := run_out_spec (dft realLibm) s heven hin hout
  have hd := (DctIVDirectDbl_spec realLibm s.NF s.NF_lt s.in_ X).2
  refine ⟨hl, fun n hn => ?_⟩
  have hrot := rotated_bin s.NF s.NF_lt heven s.in_ n hn
  rw [← htw] at hrot
  constructor
  · rw [(hg n hn).1, hrot.1, hd (2 * n) (by omega) (by omega),
      direct_even_sum s.NF heven s.in_ n hn]
  · rw [(hg n hn).2, hrot.2, hd (s.NF - 2 * n - 1) (by omega) (by omega),
      direct_odd_sum s.NF heven s.in_ n hn]
    have hsum : Finset.sum (Finset.range (s.NF / 2)) (fun j =>
          s.in_.getD (s.NF - 2 * j - 1) 0
              * Real.cos (Real.pi / (s.NF : ℝ) * (2 * (j : ℝ) + 1 / 2) * (2 * (n : ℝ) + 1 / 2))
            - s.in_.getD (2 * j) 0
              * Real.sin (Real.pi / (s.NF : ℝ) * (2 * (j : ℝ) + 1 / 2) * (2 * (n : ℝ) + 1 / 2)))
        = -Finset.sum (Finset.range (s.NF / 2)) (fun j =>
          s.in_.getD (2 * j) 0
              * Real.sin (Real.pi / (s.NF : ℝ) * (2 * (j : ℝ) + 1 / 2) * (2 * (n : ℝ) + 1 / 2))
            - s.in_.getD (s.NF - 2 * j - 1) 0
              * Real.cos (Real.pi / (s.NF : ℝ) * (2 * (j : ℝ) + 1 / 2) * (2 * (n : ℝ) + 1 / 2))) := by
      rw [← Finset.sum_neg_distrib]
      apply Finset.sum_congr rfl
      intro j _
      ring
    rw [hsum]
    by_cases hm : 2 * n + 1 = s.NF / 2
    · rw [if_pos hm, if_pos hm]; ring
    · rw [if_neg hm, if_neg hm]; ring

/-- C1: in exact real arithmetic, with the FFT step taken to be the forward
DFT of size `NF / 2` and the twiddle table as built by the constructor, for
every `NF` that is a positive multiple of 4 and every input of length `NF`,
the output buffer left by `run()` (`USE_OWN_FFT`) holds at every index
`k < NF` the value that `DctIVDirectDbl` writes at `k` for the same input. -/
theorem C1_run_equals_direct (s : DctIVDbl ℝ) (X : List ℝ)
    (hpos : 0 < s.NF) (h4 : s.NF % 4 = 0)
    (htw : s.dctIVconfig = (DctIVDbl.new realLibm s.NF s.NF_lt).dctIVconfig)
    (hin : s.in_.length = s.NF) (hout : s.out.length = s.NF) (hX : X.length = s.NF) :
    (s.run (dft realLibm)).out.length = s.NF ∧
    ∀ k, k < s.NF →
      (s.run (dft realLibm)).out.getD k 0
        = (DctIVDirectDbl realLibm s.NF s.NF_lt s.in_ X).getD k 0 := by
  have heven : s.NF % 2 = 0 := by omega
  obtain ⟨hl, hg⟩ := run_vs_direct s X hpos heven htw hin hout hX
  refine ⟨hl, fun k hk => ?_⟩
  rcases index_cases s.NF k heven hk with ⟨n, hn, rfl⟩ | ⟨n, hn, rfl⟩
  · exact (hg n hn).1
  · rw [(hg n hn).2, if_neg (by omega), one_mul]

/-- Instance of C1 at `NF = 8` with the unit impulse as input. -/
theorem C1_run_equals_direct_witness :
    ((realEngine 8 (by decide) [1, 0, 0, 0, 0, 0, 0, 0]).run (dft realLibm)).out.length
        = (realEngine 8 (by decide) [1, 0, 0, 0, 0, 0, 0, 0]).NF ∧
    ∀ k, k < (realEngine 8 (by decide) [1, 0, 0, 0, 0, 0, 0, 0]).NF →
      ((realEngine 8 (by decide) [1, 0, 0, 0, 0, 0, 0, 0]).run (dft realLibm)).out.getD k 0
        = (DctIVDirectDbl realLibm (realEngine 8 (by decide) [1, 0, 0, 0, 0, 0, 0, 0]).NF
            (realEngine 8 (by decide) [1, 0, 0, 0, 0, 0, 0, 0]).NF_lt
            (realEngine 8 (by decide) [1, 0, 0, 0, 0, 0, 0, 0]).in_
            (List.replicate 8 0)).getD k 0 :=
  C1_run_equals_direct (realEngine 8 (by decide) [1, 0, 0, 0, 0, 0, 0, 0]) (List.replicate 8 0)
    (by decide) (by decide)
    (realEngine_wf 8 (by decide) [1, 0, 0, 0, 0, 0, 0, 0] rfl).1
    (realEngine_wf 8 (by decide) [1, 0, 0, 0, 0, 0, 0, 0] rfl).2.1
    (realEngine_wf 8 (by decide) [1, 0, 0, 0, 0, 0, 0, 0] rfl).2.2 rfl

/-- The value the direct evaluator writes at index 1 for `N = 2` and input `[1, 0]`. -/
theorem direct_two_impulse :
    (DctIVDirectDbl realLibm 2 (by decide) [1, 0] [0, 0]).getD 1 0
      = 2 * Real.cos (3 * Real.pi / 8) := by
  rw [(DctIVDirectDbl_spec realLibm 2 (by decide) [1, 0] [0, 0]).2 1 (by decide) (by decide)]
  simp only [Finset.sum_range_succ, Finset.sum_range_zero, directTerm, realLibm_pi]
  simp only [realLibm, List.getD_cons_zero, List.getD_cons_succ, zero_mul, add_zero, zero_add,
    one_mul, Nat.cast_zero, Nat.cast_one, Nat.cast_ofNat]
  congr 2
  ring

theorem cos_three_eighths_pos : 0 < Real.cos (3 * Real.pi / 8) := by
  apply Real.cos_pos_of_mem_Ioo
  constructor <;> linarith [Real.pi_pos]

/-- C10: in exact real arithmetic with the forward DFT, for every even `NF`
with `NF mod 4 = 2`, the output of `run()` (`USE_OWN_FFT`) agrees with the
direct evaluator at every index except `NF / 2`, where it is the negation of
the direct value (the final loop skips the odd index `NF / 2`); for `NF = 2`
and input `[1, 0]` the two outputs differ. -/
theorem C10_sizes_two_mod_four (s : DctIVDbl ℝ) (X : List ℝ) (h2 : s.NF % 4 = 2)
    (htw : s.dctIVconfig = (DctIVDbl.new realLibm s.NF s.NF_lt).dctIVconfig)
    (hin : s.in_.length = s.NF) (hout : s.out.length = s.NF) (hX : X.length = s.NF) :
    (∀ k, k < s.NF → k ≠ s.NF / 2 →
      (s.run (dft realLibm)).out.getD k 0
        = (DctIVDirectDbl realLibm s.NF s.NF_lt s.in_ X).getD k 0) ∧
    (s.run (dft realLibm)).out.getD (s.NF / 2) 0
      = -(DctIVDirectDbl realLibm s.NF s.NF_lt s.in_ X).getD (s.NF / 2) 0 ∧
    ((realEngine 2 (by decide) [1, 0]).run (dft realLibm)).out
      ≠ DctIVDirectDbl realLibm 2 (by decide) [1, 0] [0, 0] := by
  have heven : s.NF % 2 = 0 := by omega
  obtain ⟨_, hg⟩ := run_vs_direct s X (by omega) heven htw hin hout hX
  refine ⟨fun k hk hne => ?_, ?_, ?_⟩
  · rcases index_cases s.NF k heven hk with ⟨n, hn, rfl⟩ | ⟨n, hn, rfl⟩
    · exact (hg n hn).1
    · rw [(hg n hn).2, if_neg (by omega), one_mul]
  · have hn : (s.NF / 2 - 1) / 2 < s.NF / 2 := by omega
    have e : s.NF - 2 * ((s.NF / 2 - 1) / 2) - 1 = s.NF / 2 := by omega
    have h := (hg ((s.NF / 2 - 1) / 2) hn).2
    rw [e, if_pos (by omega)] at h
    rw [h]
    ring
  · intro hcontra
    obtain ⟨w1, w2, w3⟩ := realEngine_wf 2 (by decide) [1, 0] rfl
    have key := ((run_vs_direct (realEngine 2 (by decide) [1, 0]) [0, 0] (by decide) (by decide)
      w1 w2 w3 rfl).2 0 (by decide)).2
    have key2 : ((realEngine 2 (by decide) [1, 0]).run (dft realLibm)).out.getD 1 0
        = (-1 : ℝ) * (DctIVDirectDbl realLibm 2 (by decide) [1, 0] [0, 0]).getD 1 0 := key
    rw [hcontra, direct_two_impulse] at key2
    have := cos_three_eighths_pos
    linarith

/-- Instance of C10 at `NF = 2` with input `[1, 0]`. -/
theorem C10_sizes_two_mod_four_witness :
    (∀ k, k < (realEngine 2 (by decide) [1, 0]).NF → k ≠ (realEngine 2 (by decide) [1, 0]).NF / 2 →
      ((realEngine 2 (by decide) [1, 0]).run (dft realLibm)).out.getD k 0
        = (DctIVDirectDbl realLibm (realEngine 2 (by decide) [1, 0]).NF
            (realEngine 2 (by decide) [1, 0]).NF_lt (realEngine 2 (by decide) [1, 0]).in_
            [0, 0]).getD k 0) ∧
    ((realEngine 2 (by decide) [1, 0]).run (dft realLibm)).out.getD
        ((realEngine 2 (by decide) [1, 0]).NF / 2) 0
      = -(DctIVDirectDbl realLibm (realEngine 2 (by decide) [1, 0]).NF
            (realEngine 2 (by decide) [1, 0]).NF_lt (realEngine 2 (by decide) [1, 0]).in_
            [0, 0]).getD ((realEngine 2 (by decide) [1, 0]).NF / 2) 0 ∧
    ((realEngine 2 (by decide) [1, 0]).run (dft realLibm)).out
      ≠ DctIVDirectDbl realLibm 2 (by decide) [1, 0] [0, 0] :=
  C10_sizes_two_mod_four (realEngine 2 (by decide) [1, 0]) [0, 0] (by decide)
    (realEngine_wf 2 (by decide) [1, 0] rfl).1 (realEngine_wf 2 (by decide) [1, 0] rfl).2.1
    (realEngine_wf 2 (by decide) [1, 0] rfl).2.2 rfl

/-! ## Linearity -/

theorem getD_zipWith (f : R → R → R) (a b : List R) (i : Nat) (ha : i < a.length)
    (hb : i < b.length) :
    (List.zipWith f a b).getD i 0 = f (a.getD i 0) (b.getD i 0) := by
  rw [List.getD_eq_getElem _ _ (by simp; omega), List.getD_eq_getElem _ _ ha,
    List.getD_eq_getElem _ _ hb]
  simp

/-- The rotated DFT bin is linear in the input vector, for any twiddle table. -/
theorem rotated_linear (L : Libm R) (NF : Nat) (heven : NF % 2 = 0) (tw : List (complex R))
    (a b : List R) (c : R) (ha : a.length = NF) (hb : b.length = NF) (n : Nat)
    (hn : n < NF / 2) :
    ((tw.getD n 0).mul ((dft L false
        (packed NF tw (List.zipWith (fun u v => u + c * v) a b)) (NF / 2)).getD n 0)).re
      = ((tw.getD n 0).mul ((dft L false (packed NF tw a) (NF / 2)).getD n 0)).re
        + c * ((tw.getD n 0).mul ((dft L false (packed NF tw b) (NF / 2)).getD n 0)).re ∧
    ((tw.getD n 0).mul ((dft L false
        (packed NF tw (List.zipWith (fun u v => u + c * v) a b)) (NF / 2)).getD n 0)).im
      = ((tw.getD n 0).mul ((dft L false (packed NF tw a) (NF / 2)).getD n 0)).im
        + c * ((tw.getD n 0).mul ((dft L false (packed NF tw b) (NF / 2)).getD n 0)).im := by
  rw [dft_getD L _ _ _ hn, dft_getD L _ _ _ hn, dft_getD L _ _ _ hn]
  simp only [complex.mul]
  constructor
  · simp only [Finset.mul_sum, ← Finset.sum_sub_distrib, ← Finset.sum_add_distrib]
    apply Finset.sum_congr rfl
    intro j hj
    have hj' : j < NF / 2 := Finset.mem_range.mp hj
    rw [packed_getD _ _ _ _ hj', packed_getD _ _ _ _ hj', packed_getD _ _ _ _ hj',
      getD_zipWith _ a b (2 * j) (by omega) (by omega),
      getD_zipWith _ a b (NF - 2 * j - 1) (by omega) (by omega)]
    simp only [complex.mul]
    ring
  · simp only [Finset.mul_sum, ← Finset.sum_add_distrib]
    apply Finset.sum_congr rfl
    intro j hj
    have hj' : j < NF / 2 := Finset.mem_range.mp hj
    rw [packed_getD _ _ _ _ hj', packed_getD _ _ _ _ hj', packed_getD _ _ _ _ hj',
      getD_zipWith _ a b (2 * j) (by omega) (by omega),
      getD_zipWith _ a b (NF - 2 * j - 1) (by omega) (by omega)]
    simp only [complex.mul]
    ring

/-- C6: in exact real arithmetic, with the FFT step taken to be the forward
DFT of size `NF / 2`, for every `NF` that is a positive multiple of 4, all
vectors `a`, `b` of length `NF` and every scalar `c`, the output of `run()` on
the input `a + c·b` is, index by index, the output on `a` plus `c` times the
output on `b`; an all-zero input gives an all-zero output. -/
theorem C6_run_linear (s : DctIVDbl ℝ) (a b : List ℝ) (c : ℝ)
    (hpos : 0 < s.NF) (h4 : s.NF % 4 = 0)
    (ha : a.length = s.NF) (hb : b.length = s.NF) (hout : s.out.length = s.NF) :
    (∀ k, k < s.NF →
      ((s.setInput (List.zipWith (fun u v => u + c * v) a b)).run (dft realLibm)).out.getD k 0
        = ((s.setInput a).run (dft realLibm)).out.getD k 0
          + c * ((s.setInput b).run (dft realLibm)).out.getD k 0) ∧
    ((s.setInput (List.replicate s.NF 0)).run (dft realLibm)).out = List.replicate s.NF 0 := by
  have heven : s.NF % 2 = 0 := by omega
  have hlin : ∀ (a b : List ℝ) (c : ℝ), a.length = s.NF → b.length = s.NF → ∀ k, k < s.NF →
      ((s.setInput (List.zipWith (fun u v => u + c * v) a b)).run (dft realLibm)).out.getD k 0
        = ((s.setInput a).run (dft realLibm)).out.getD k 0
          + c * ((s.setInput b).run (dft realLibm)).out.getD k 0 := by
    intro a b c ha hb k hk
    have hz : (List.zipWith (fun u v => u + c * v) a b).length = s.NF := by
      simp [ha, hb]
    obtain ⟨_, hz1⟩ := run_out_spec (dft realLibm)
      (s.setInput (List.zipWith (fun u v => u + c * v) a b)) heven hz hout
    obtain ⟨_, ha1⟩ := run_out_spec (dft realLibm) (s.setInput a) heven ha hout
    obtain ⟨_, hb1⟩ := run_out_spec (dft realLibm) (s.setInput b) heven hb hout
    rcases index_cases s.NF k heven hk with ⟨n, hn, rfl⟩ | ⟨n, hn, rfl⟩
    · have h1 := (hz1 n hn).1
      have h2 := (ha1 n hn).1
      have h3 := (hb1 n hn).1
      have hl := (rotated_linear realLibm s.NF heven s.dctIVconfig a b c ha hb n hn).1
      simp only [DctIVDbl.setInput] at h1 h2 h3 ⊢
      rw [h1, h2, h3, hl]
      ring
    · have h1 := (hz1 n hn).2
      have h2 := (ha1 n hn).2
      have h3 := (hb1 n hn).2
      have hl := (rotated_linear realLibm s.NF heven s.dctIVconfig a b c ha hb n hn).2
      simp only [DctIVDbl.setInput] at h1 h2 h3 ⊢
      rw [h1, h2, h3, hl]
      ring
  refine ⟨hlin a b c ha hb, ?_⟩
  have hz0 : List.zipWith (fun u v => u + (-1 : ℝ) * v) (List.replicate s.NF (0 : ℝ))
      (List.replicate s.NF (0 : ℝ)) = List.replicate s.NF 0 := by
    simp
  have h0 := hlin (List.replicate s.NF 0) (List.replicate s.NF 0) (-1) (by simp) (by simp)
  rw [hz0] at h0
  obtain ⟨hlen, _⟩ := run_out_spec (dft realLibm) (s.setInput (List.replicate s.NF 0)) heven
    (by simp [DctIVDbl.setInput]) hout
  apply ext_getD 0
  · rw [hlen]; simp [DctIVDbl.setInput]
  · intro i hi
    have hi' : i < s.NF := by rw [hlen] at hi; exact hi
    have := h0 i hi'
    rw [List.getD_eq_getElem (List.replicate s.NF (0 : ℝ)) 0 (by simpa using hi')]
    simp only [List.getElem_replicate]
    linarith

/-- Instance of C6 at `NF = 4`. -/
theorem C6_run_linear_witness :
    (∀ k, k < (realEngine 4 (by decide) [0, 0, 0, 0]).NF →
      (((realEngine 4 (by decide) [0, 0, 0, 0]).setInput
          (List.zipWith (fun u v => u + 3 * v) [1, 2, 3, 4] [5, 6, 7, 8])).run
            (dft realLibm)).out.getD k 0
        = (((realEngine 4 (by decide) [0, 0, 0, 0]).setInput [1, 2, 3, 4]).run
            (dft realLibm)).out.getD k 0
          + 3 * (((realEngine 4 (by decide) [0, 0, 0, 0]).setInput [5, 6, 7, 8]).run
            (dft realLibm)).out.getD k 0) ∧
    (((realEngine 4 (by decide) [0, 0, 0, 0]).setInput
        (List.replicate (realEngine 4 (by decide) [0, 0, 0, 0]).NF 0)).run (dft realLibm)).out
      = List.replicate (realEngine 4 (by decide) [0, 0, 0, 0]).NF 0 :=
  C6_run_linear (realEngine 4 (by decide) [0, 0, 0, 0]) [1, 2, 3, 4] [5, 6, 7, 8] 3
    (by decide) (by decide) rfl rfl (realEngine_wf 4 (by decide) [0, 0, 0, 0] rfl).2.2

/-! ## Orthogonality -/

theorem sin_telescope (θ : ℝ) (n : ℕ) :
    2 * Real.sin (θ / 2) * Real.cos (((n : ℝ) + 1 / 2) * θ)
      = Real.sin (((n + 1 : ℕ) : ℝ) * θ) - Real.sin ((n : ℝ) * θ) := by
  have e1 : ((n + 1 : ℕ) : ℝ) * θ = ((n : ℝ) + 1 / 2) * θ + θ / 2 := by push_cast; ring
  have e2 : (n : ℝ) * θ = ((n : ℝ) + 1 / 2) * θ - θ / 2 := by ring
  rw [e1, e2, Real.sin_add, Real.sin_sub]
  ring

theorem cos_sum_zero (N d : ℕ) (hN : 0 < N) (hd0 : 0 < d) (hd : d < 2 * N) :
    Finset.sum (Finset.range N)
      (fun n => Real.cos (((n : ℝ) + 1 / 2) * (Real.pi * (d : ℝ) / (N : ℝ)))) = 0 := by
  have hNr : (0 : ℝ) < N := by exact_mod_cast hN
  have hdr : (0 : ℝ) < d := by exact_mod_cast hd0
  have hdN : (d : ℝ) < 2 * N := by exact_mod_cast hd
  have hpos : 0 < Real.pi * (d : ℝ) / (N : ℝ) / 2 := by positivity
  have hlt : Real.pi * (d : ℝ) / (N : ℝ) / 2 < Real.pi := by
    rw [div_div, div_lt_iff₀ (by positivity)]
    nlinarith [Real.pi_pos]
  have hs : 0 < Real.sin (Real.pi * (d : ℝ) / (N : ℝ) / 2) :=
    Real.sin_pos_of_pos_of_lt_pi hpos hlt
  have ht : 2 * Real.sin (Real.pi * (d : ℝ) / (N : ℝ) / 2)
      * Finset.sum (Finset.range N)
        (fun n => Real.cos (((n : ℝ) + 1 / 2) * (Real.pi * (d : ℝ) / (N : ℝ)))) = 0 := by
    rw [Finset.mul_sum]
    simp only [sin_telescope]
    rw [Finset.sum_range_sub (fun n => Real.sin ((n : ℝ) * (Real.pi * (d : ℝ) / (N : ℝ)))) N]
    have e : (N : ℝ) * (Real.pi * (d : ℝ) / (N : ℝ)) = (d : ℝ) * Real.pi := by
      field_simp
      ring
    rw [e, Real.sin_nat_mul_pi]
    simp
  rcases mul_eq_zero.mp ht with h | h
  · exfalso
    linarith
  · exact h

theorem cos_orthogonal (N m k : ℕ) (hN : 0 < N) (hm : m < N) (hk : k < N) :
    Finset.sum (Finset.range N) (fun n =>
        Real.cos (Real.pi / (N : ℝ) * ((m : ℝ) + 1 / 2) * ((n : ℝ) + 1 / 2))
          * Real.cos (Real.pi / (N : ℝ) * ((n : ℝ) + 1 / 2) * ((k : ℝ) + 1 / 2)))
      = if m = k then (N : ℝ) / 2 else 0 := by
  have hNr : (N : ℝ) ≠ 0 := by exact_mod_cast hN.ne'
  have hprod : ∀ (n d1 : ℕ), (d1 + k = m ∨ d1 + m = k) →
      Real.cos (Real.pi / (N : ℝ) * ((m : ℝ) + 1 / 2) * ((n : ℝ) + 1 / 2))
          * Real.cos (Real.pi / (N : ℝ) * ((n : ℝ) + 1 / 2) * ((k : ℝ) + 1 / 2))
        = (Real.cos (((n : ℝ) + 1 / 2) * (Real.pi * ((d1 : ℕ) : ℝ) / (N : ℝ)))
          + Real.cos (((n : ℝ) + 1 / 2) * (Real.pi * ((m + k + 1 : ℕ) : ℝ) / (N : ℝ)))) / 2 := by
    intro n d1 hd1
    have e2 : ((n : ℝ) + 1 / 2) * (Real.pi * ((m + k + 1 : ℕ) : ℝ) / (N : ℝ))
        = Real.pi / (N : ℝ) * ((m : ℝ) + 1 / 2) * ((n : ℝ) + 1 / 2)
          + Real.pi / (N : ℝ) * ((n : ℝ) + 1 / 2) * ((k : ℝ) + 1 / 2) := by
      push_cast
      ring
    rcases hd1 with h | h
    · have hc : (d1 : ℝ) = (m : ℝ) - (k : ℝ) := by
        have := congrArg (Nat.cast : ℕ → ℝ) h
        push_cast at this
        linarith
      have e1 : ((n : ℝ) + 1 / 2) * (Real.pi * (d1 : ℝ) / (N : ℝ))
          = Real.pi / (N : ℝ) * ((m : ℝ) + 1 / 2) * ((n : ℝ) + 1 / 2)
            - Real.pi / (N : ℝ) * ((n : ℝ) + 1 / 2) * ((k : ℝ) + 1 / 2) := by
        rw [hc]
        ring
      rw [e1, e2, Real.cos_sub, Real.cos_add]
      ring
    · have hc : (d1 : ℝ) = (k : ℝ) - (m : ℝ) := by
        have := congrArg (Nat.cast : ℕ → ℝ) h
        push_cast at this
        linarith
      have e1 : ((n : ℝ) + 1 / 2) * (Real.pi * (d1 : ℝ) / (N : ℝ))
          = Real.pi / (N : ℝ) * ((n : ℝ) + 1 / 2) * ((k : ℝ) + 1 / 2)
            - Real.pi / (N : ℝ) * ((m : ℝ) + 1 / 2) * ((n : ℝ) + 1 / 2) := by
        rw [hc]
        ring
      rw [e1, e2, Real.cos_sub, Real.cos_add]
      ring
  have hsum2 := cos_sum_zero N (m + k + 1) hN (by omega) (by omega)
  by_cases hmk : m = k
  · rw [if_pos hmk]
    have hterm : ∀ n ∈ Finset.range N,
        Real.cos (Real.pi / (N : ℝ) * ((m : ℝ) + 1 / 2) * ((n : ℝ) + 1 / 2))
          * Real.cos (Real.pi / (N : ℝ) * ((n : ℝ) + 1 / 2) * ((k : ℝ) + 1 / 2))
        = (1 + Real.cos (((n : ℝ) + 1 / 2) * (Real.pi * ((m + k + 1 : ℕ) : ℝ) / (N : ℝ)))) / 2 := by
      intro n _
      rw [hprod n 0 (Or.inl (by omega))]
      simp
    rw [Finset.sum_congr rfl hterm, ← Finset.sum_div, Finset.sum_add_distrib, hsum2]
    simp
  · rw [if_neg hmk]
    rcases Nat.lt_or_gt_of_ne hmk with hlt | hgt
    · have hsum1 := cos_sum_zero N (k - m) hN (by omega) (by omega)
      have hterm : ∀ n ∈ Finset.range N,
          Real.cos (Real.pi / (N : ℝ) * ((m : ℝ) + 1 / 2) * ((n : ℝ) + 1 / 2))
            * Real.cos (Real.pi / (N : ℝ) * ((n : ℝ) + 1 / 2) * ((k : ℝ) + 1 / 2))
          = (Real.cos (((n : ℝ) + 1 / 2) * (Real.pi * ((k - m : ℕ) : ℝ) / (N : ℝ)))
            + Real.cos (((n : ℝ) + 1 / 2) * (Real.pi * ((m + k + 1 : ℕ) : ℝ) / (N : ℝ)))) / 2 :=
        fun n _ => hprod n (k - m) (Or.inr (by omega))
      rw [Finset.sum_congr rfl hterm, ← Finset.sum_div, Finset.sum_add_distrib, hsum1, hsum2]
      simp
    · have hsum1 := cos_sum_zero N (m - k) hN (by omega) (by omega)
      have hterm : ∀ n ∈ Finset.range N,
          Real.cos (Real.pi / (N : ℝ) * ((m : ℝ) + 1 / 2) * ((n : ℝ) + 1 / 2))
            * Real.cos (Real.pi / (N : ℝ) * ((n : ℝ) + 1 / 2) * ((k : ℝ) + 1 / 2))
          = (Real.cos (((n : ℝ) + 1 / 2) * (Real.pi * ((m - k : ℕ) : ℝ) / (N : ℝ)))
            + Real.cos (((n : ℝ) + 1 / 2) * (Real.pi * ((m + k + 1 : ℕ) : ℝ) / (N : ℝ)))) / 2 :=
        fun n _ => hprod n (m - k) (Or.inl (by omega))
      rw [Finset.sum_congr rfl hterm, ← Finset.sum_div, Finset.sum_add_distrib, hsum1, hsum2]
      simp

/-- The direct evaluator applied to its own output returns `2·N` times the input. -/
theorem direct_self_inverse (N : Nat) (hN : N < 65536) (x X1 X2 : List ℝ)
    (h1 : 1 ≤ N) (hx : x.length = N) (hX1 : X1.length = N) (hX2 : X2.length = N) :
    ∀ k, k < N →
      (DctIVDirectDbl realLibm N hN (DctIVDirectDbl realLibm N hN x X1) X2).getD k 0
        = 2 * (N : ℝ) * x.getD k 0 := by
  intro k hk
  obtain ⟨hyl, hy⟩ := DctIVDirectDbl_spec realLibm N hN x X1
  rw [(DctIVDirectDbl_spec realLibm N hN (DctIVDirectDbl realLibm N hN x X1) X2).2 k hk
    (by omega)]
  have hinner : ∀ n ∈ Finset.range N,
      directTerm realLibm N (DctIVDirectDbl realLibm N hN x X1) k n
        = Finset.sum (Finset.range N) (fun m => 2 * x.getD m 0
            * (Real.cos (Real.pi / (N : ℝ) * ((m : ℝ) + 1 / 2) * ((n : ℝ) + 1 / 2))
              * Real.cos (Real.pi / (N : ℝ) * ((n : ℝ) + 1 / 2) * ((k : ℝ) + 1 / 2)))) := by
    intro n hn
    have hn' : n < N := Finset.mem_range.mp hn
    unfold directTerm
    rw [hy n hn' (by omega), Finset.mul_sum, Finset.sum_mul]
    apply Finset.sum_congr rfl
    intro m _
    simp only [directTerm, realLibm_pi]
    simp only [realLibm]
    ring
  have houter : ∀ m ∈ Finset.range N,
      Finset.sum (Finset.range N) (fun n => 2 * x.getD m 0
            * (Real.cos (Real.pi / (N : ℝ) * ((m : ℝ) + 1 / 2) * ((n : ℝ) + 1 / 2))
              * Real.cos (Real.pi / (N : ℝ) * ((n : ℝ) + 1 / 2) * ((k : ℝ) + 1 / 2))))
        = 2 * x.getD m 0 * (if m = k then (N : ℝ) / 2 else 0) := by
    intro m hm
    rw [← Finset.mul_sum, cos_orthogonal N m k (by omega) (Finset.mem_range.mp hm) hk]
  rw [Finset.sum_congr rfl hinner, Finset.sum_comm, Finset.sum_congr rfl houter,
    Finset.sum_eq_single k]
  · rw [if_pos rfl]
    ring
  · intro b _ hb
    rw [if_neg hb]
    ring
  · intro hk'
    exact absurd (Finset.mem_range.mpr hk) hk'


/-- C5: in exact real arithmetic, for every `N ≥ 1` and every input `x` of
length `N`, the transform computed by `DctIVDirectDbl`, applied to its own
output, gives back the input multiplied by `2·N`:
`D(N, D(N, x))[k] = 2·N·x[k]` for every `k < N`; the reference `run()` (the
branch that calls `DctIVDirectDbl(NF, in, out)`), run again on its own output
copied to the input buffer, does the same. -/
theorem C5_direct_self_inverse (N : Nat) (hN : N < 65536) (x X1 X2 : List ℝ)
    (h1 : 1 ≤ N) (hx : x.length = N) (hX1 : X1.length = N) (hX2 : X2.length = N) :
    (∀ k, k < N →
      (DctIVDirectDbl realLibm N hN (DctIVDirectDbl realLibm N hN x X1) X2).getD k 0
        = 2 * (N : ℝ) * x.getD k 0) ∧
    (∀ s : DctIVDbl ℝ, s.NF = N → s.in_ = x → s.out.length = N → ∀ k, k < N →
      (((s.run_DIRECT realLibm).setInput (s.run_DIRECT realLibm).out).run_DIRECT realLibm).out.getD
          k 0
        = 2 * (N : ℝ) * x.getD k 0) := by
  refine ⟨direct_self_inverse N hN x X1 X2 h1 hx hX1 hX2, ?_⟩
  intro s hs hsx hso k hk
  subst hs
  subst hsx
  have hlen : (DctIVDirectDbl realLibm s.NF s.NF_lt s.in_ s.out).length = s.NF := by
    rw [(DctIVDirectDbl_spec realLibm s.NF s.NF_lt s.in_ s.out).1, hso]
  exact direct_self_inverse s.NF s.NF_lt s.in_ s.out
    (DctIVDirectDbl realLibm s.NF s.NF_lt s.in_ s.out) h1 hx hso hlen k hk

/-- Instance of C5 at `N = 8` with the unit impulse as input. -/
theorem C5_direct_self_inverse_witness :
    (∀ k, k < 8 →
      (DctIVDirectDbl realLibm 8 (by decide)
          (DctIVDirectDbl realLibm 8 (by decide) [1, 0, 0, 0, 0, 0, 0, 0] (List.replicate 8 0))
          (List.replicate 8 0)).getD k 0
        = 2 * ((8 : ℕ) : ℝ) * ([1, 0, 0, 0, 0, 0, 0, 0] : List ℝ).getD k 0) ∧
    (∀ s : DctIVDbl ℝ, s.NF = 8 → s.in_ = [1, 0, 0, 0, 0, 0, 0, 0] → s.out.length = 8 →
      ∀ k, k < 8 →
      (((s.run_DIRECT realLibm).setInput (s.run_DIRECT realLibm).out).run_DIRECT realLibm).out.getD
          k 0
        = 2 * ((8 : ℕ) : ℝ) * ([1, 0, 0, 0, 0, 0, 0, 0] : List ℝ).getD k 0) :=
  C5_direct_self_inverse 8 (by decide) [1, 0, 0, 0, 0, 0, 0, 0] (List.replicate 8 0)
    (List.replicate 8 0) (by decide) rfl rfl rfl

/-! ## Two calls in a row -/

theorem twiddle4_zero :
    (DctIVDbl.new realLibm 4 (by decide)).dctIVconfig.getD 0 0
      = ⟨Real.cos (Real.pi / 32), -Real.sin (Real.pi / 32)⟩ := by
  rw [new_twiddle_getD 4 (by decide) 0 (by decide), ← Real.cos_neg (Real.pi / 32),
    ← Real.sin_neg (Real.pi / 32)]
  have e : -Real.pi * (8 * ((0 : ℕ) : ℝ) + 1) / (16 * ((4 / 2 : ℕ) : ℝ)) = -(Real.pi / 32) := by
    norm_num
    ring
  rw [e]

/-- The input buffer that `run()` leaves for size 4 and the unit impulse. -/
theorem impulse4_in_after :
    ((realEngine 4 (by decide) [1, 0, 0, 0]).run (dft realLibm)).in_
      = [Real.cos (Real.pi / 32), -Real.sin (Real.pi / 32), 0, 0] := by
  obtain ⟨_, w2, _⟩ := realEngine_wf 4 (by decide) [1, 0, 0, 0] rfl
  obtain ⟨hl, hg⟩ := run_in_spec (dft realLibm) (realEngine 4 (by decide) [1, 0, 0, 0])
    (by decide) w2
  have hl4 : ((realEngine 4 (by decide) [1, 0, 0, 0]).run (dft realLibm)).in_.length = 4 := hl
  have g0 := hg 0 (by decide)
  have g1 := hg 1 (by decide)
  rw [packed_getD _ _ _ _ (by decide)] at g0 g1
  have t0 : (realEngine 4 (by decide) [1, 0, 0, 0]).dctIVconfig.getD 0 0
      = ⟨Real.cos (Real.pi / 32), -Real.sin (Real.pi / 32)⟩ := twiddle4_zero
  have x0 : (realEngine 4 (by decide) [1, 0, 0, 0]).in_.getD (2 * 0) 0 = 1 := rfl
  have x3 : (realEngine 4 (by decide) [1, 0, 0, 0]).in_.getD
      ((realEngine 4 (by decide) [1, 0, 0, 0]).NF - 2 * 0 - 1) 0 = 0 := rfl
  have x2 : (realEngine 4 (by decide) [1, 0, 0, 0]).in_.getD (2 * 1) 0 = 0 := rfl
  have x1 : (realEngine 4 (by decide) [1, 0, 0, 0]).in_.getD
      ((realEngine 4 (by decide) [1, 0, 0, 0]).NF - 2 * 1 - 1) 0 = 0 := rfl
  rw [t0, x0, x3] at g0
  rw [x2, x1] at g1
  simp only [complex.mul] at g0 g1
  apply ext_getD 0
  · rw [hl4]; rfl
  · intro i hi
    rw [hl4] at hi
    interval_cases i
    · show ((realEngine 4 (by decide) [1, 0, 0, 0]).run (dft realLibm)).in_.getD (2 * 0) 0
        = Real.cos (Real.pi / 32)
      rw [g0.1]; ring
    · show ((realEngine 4 (by decide) [1, 0, 0, 0]).run (dft realLibm)).in_.getD (2 * 0 + 1) 0
        = -Real.sin (Real.pi / 32)
      rw [g0.2]; ring
    · show ((realEngine 4 (by decide) [1, 0, 0, 0]).run (dft realLibm)).in_.getD (2 * 1) 0 = 0
      rw [g1.1]; ring
    · show ((realEngine 4 (by decide) [1, 0, 0, 0]).run (dft realLibm)).in_.getD (2 * 1 + 1) 0 = 0
      rw [g1.2]; ring

theorem sin_pi_div_32_pos : 0 < Real.sin (Real.pi / 32) :=
  Real.sin_pos_of_pos_of_lt_pi (by positivity) (by linarith [Real.pi_pos])

/-- C8, as the code behaves: for `NF = 4` and input `1, 0, 0, 0` the input
buffer after `run()` holds `cos(π/32), -sin(π/32), 0, 0`, which is not a
rearrangement of the values it held before. -/
theorem C8_counterexample :
    ¬ List.Perm ((realEngine 4 (by decide) [1, 0, 0, 0]).run (dft realLibm)).in_
        (realEngine 4 (by decide) [1, 0, 0, 0]).in_ := by
  intro hperm
  rw [impulse4_in_after] at hperm
  have hmem : -Real.sin (Real.pi / 32) ∈ (realEngine 4 (by decide) [1, 0, 0, 0]).in_ :=
    hperm.subset (by simp)
  have hmem2 : -Real.sin (Real.pi / 32) ∈ ([1, 0, 0, 0] : List ℝ) := hmem
  have hpos := sin_pi_div_32_pos
  simp only [List.mem_cons, List.mem_singleton, List.not_mem_nil, or_false] at hmem2
  rcases hmem2 with h | h | h | h <;> linarith

/-- The value the direct evaluator writes at index 0 for `N = 4`. -/
theorem direct4_zero (x0 x1 x2 x3 : ℝ) (X : List ℝ) (hX : X.length = 4) :
    (DctIVDirectDbl realLibm 4 (by decide) [x0, x1, x2, x3] X).getD 0 0
      = 2 * (x0 * Real.cos (Real.pi / 16) + x1 * Real.cos (3 * Real.pi / 16)
          + x2 * Real.cos (5 * Real.pi / 16) + x3 * Real.cos (7 * Real.pi / 16)) := by
  rw [(DctIVDirectDbl_spec realLibm 4 (by decide) [x0, x1, x2, x3] X).2 0 (by decide)
    (by omega)]
  simp only [Finset.sum_range_succ, Finset.sum_range_zero, directTerm, realLibm_pi]
  simp only [realLibm, List.getD_cons_zero, List.getD_cons_succ, zero_add,
    Nat.cast_zero, Nat.cast_one, Nat.cast_ofNat]
  ring_nf

/-- C7, as the code behaves: for `NF = 4` and input `1, 0, 0, 0`, a second
`run()` right after the first, the caller not touching the input buffer,
leaves an output buffer different from the one the first call left. -/
theorem C7_counterexample :
    (((realEngine 4 (by decide) [1, 0, 0, 0]).run (dft realLibm)).run (dft realLibm)).out
      ≠ ((realEngine 4 (by decide) [1, 0, 0, 0]).run (dft realLibm)).out := by
  intro heq
  obtain ⟨w1, w2, w3⟩ := realEngine_wf 4 (by decide) [1, 0, 0, 0] rfl
  have hin1 := (run_in_spec (dft realLibm) (realEngine 4 (by decide) [1, 0, 0, 0])
    (by decide) w2).1
  have hout1 := (run_out_spec (dft realLibm) (realEngine 4 (by decide) [1, 0, 0, 0])
    (by decide) w2 w3).1
  have first := ((run_vs_direct (realEngine 4 (by decide) [1, 0, 0, 0]) [0, 0, 0, 0]
    (by decide) (by decide) w1 w2 w3 rfl).2 0 (by decide)).1
  have second := ((run_vs_direct ((realEngine 4 (by decide) [1, 0, 0, 0]).run (dft realLibm))
    [0, 0, 0, 0] (by decide) (by decide) rfl hin1 hout1 rfl).2 0 (by decide)).1
  have first2 : ((realEngine 4 (by decide) [1, 0, 0, 0]).run (dft realLibm)).out.getD 0 0
      = (DctIVDirectDbl realLibm 4 (by decide) [1, 0, 0, 0] [0, 0, 0, 0]).getD 0 0 := first
  have second2 :
      (((realEngine 4 (by decide) [1, 0, 0, 0]).run (dft realLibm)).run (dft realLibm)).out.getD 0 0
      = (DctIVDirectDbl realLibm 4 (by decide)
          ((realEngine 4 (by decide) [1, 0, 0, 0]).run (dft realLibm)).in_ [0, 0, 0, 0]).getD 0 0 :=
    second
  rw [impulse4_in_after, direct4_zero _ _ _ _ [0, 0, 0, 0] rfl, heq, first2,
    direct4_zero _ _ _ _ [0, 0, 0, 0] rfl] at second2
  have hs := sin_pi_div_32_pos
  have hc : Real.cos (Real.pi / 32) ≤ 1 := Real.cos_le_one _
  have hC : 0 < Real.cos (Real.pi / 16) :=
    Real.cos_pos_of_mem_Ioo ⟨by linarith [Real.pi_pos], by linarith [Real.pi_pos]⟩
  have hC3 : 0 < Real.cos (3 * Real.pi / 16) :=
    Real.cos_pos_of_mem_Ioo ⟨by linarith [Real.pi_pos], by linarith [Real.pi_pos]⟩
  have h1 : Real.cos (Real.pi / 32) * Real.cos (Real.pi / 16) ≤ Real.cos (Real.pi / 16) := by
    nlinarith
  have h2 : 0 < Real.sin (Real.pi / 32) * Real.cos (3 * Real.pi / 16) := mul_pos hs hC3
  nlinarith

end LC3
